import Mathlib

/-! QLB (quantum lattice Boltzmann) — the CPU kernel of `QLBcpu.cpp`

A shallow embedding of `QLB::V_harmonic`, `QLB::V_free`, `QLB::Qhat_X`, `QLB::Qhat_Y`,
`QLB::evolution_CPU` and `QLB::calculate_macroscopic_vars`.

`float_t` is modelled by an arbitrary field `K` (exact arithmetic, no rounding), and
`std::complex<float_t>` by the pairs `Cx K`.  Every definition is computable, so it can be
evaluated at `K = ℚ`; every theorem is stated for an arbitrary linearly ordered field and
so holds at `K = ℝ`.  Division is the total division of the field; a theorem that depends
on a divisor being non-zero either proves it or carries it as a hypothesis.  The library
function `std::sqrt` and the constant matrices `X`, `Xinv`, `Y`, `Yinv`, `alphaX`, `alphaY`
(defined outside the sources at hand) are parameters.
-/

namespace QLB

/-! `std::complex<float_t>` -/

/-- The type `complex_t = std::complex<float_t>`: a real and an imaginary part. -/
structure Cx (K : Type) where
  re : K
  im : K
deriving DecidableEq, Repr

namespace Cx

variable {K : Type}

/-- Conversion `float_t → complex_t` (the constructor `complex_t(r)`), which C++ applies
implicitly in mixed real/complex arithmetic. -/
def ofReal [Zero K] (r : K) : Cx K := ⟨r, 0⟩

instance [Zero K] : Zero (Cx K) := ⟨⟨0, 0⟩⟩
instance [Zero K] [One K] : One (Cx K) := ⟨⟨1, 0⟩⟩
instance [Add K] : Add (Cx K) := ⟨fun z w => ⟨z.re + w.re, z.im + w.im⟩⟩
instance [Neg K] : Neg (Cx K) := ⟨fun z => ⟨-z.re, -z.im⟩⟩
instance [Sub K] : Sub (Cx K) := ⟨fun z w => ⟨z.re - w.re, z.im - w.im⟩⟩
instance [Add K] [Sub K] [Mul K] : Mul (Cx K) :=
  ⟨fun z w => ⟨z.re * w.re - z.im * w.im, z.re * w.im + z.im * w.re⟩⟩

/-- The function `std::conj`. -/
def conj [Neg K] (z : Cx K) : Cx K := ⟨z.re, -z.im⟩

/-- The function `std::norm`: the squared magnitude. -/
def norm [Add K] [Mul K] (z : Cx K) : K := z.re * z.re + z.im * z.im

/-- The operator `/` of `std::complex`: `z / w = z · conj w / norm w`. -/
instance [Add K] [Sub K] [Mul K] [Div K] : Div (Cx K) :=
  ⟨fun z w => ⟨(z.re * w.re + z.im * w.im) / (w.re * w.re + w.im * w.im),
               (z.im * w.re - z.re * w.im) / (w.re * w.re + w.im * w.im)⟩⟩

instance [CommRing K] : CommRing (Cx K) where
  add_assoc := by
    rintro ⟨a, b⟩ ⟨c, d⟩ ⟨e, f⟩
    show Cx.mk (a + c + e) (b + d + f) = Cx.mk (a + (c + e)) (b + (d + f))
    congr 1 <;> ring
  zero_add := by
    rintro ⟨a, b⟩
    show Cx.mk (0 + a) (0 + b) = Cx.mk a b
    congr 1 <;> ring
  add_zero := by
    rintro ⟨a, b⟩
    show Cx.mk (a + 0) (b + 0) = Cx.mk a b
    congr 1 <;> ring
  add_comm := by
    rintro ⟨a, b⟩ ⟨c, d⟩
    show Cx.mk (a + c) (b + d) = Cx.mk (c + a) (d + b)
    congr 1 <;> ring
  neg_add_cancel := by
    rintro ⟨a, b⟩
    show Cx.mk (-a + a) (-b + b) = Cx.mk 0 0
    congr 1 <;> ring
  sub_eq_add_neg := by
    rintro ⟨a, b⟩ ⟨c, d⟩
    show Cx.mk (a - c) (b - d) = Cx.mk (a + -c) (b + -d)
    congr 1 <;> ring
  mul_assoc := by
    rintro ⟨a, b⟩ ⟨c, d⟩ ⟨e, f⟩
    show Cx.mk ((a * c - b * d) * e - (a * d + b * c) * f)
        ((a * c - b * d) * f + (a * d + b * c) * e)
      = Cx.mk (a * (c * e - d * f) - b * (c * f + d * e))
        (a * (c * f + d * e) + b * (c * e - d * f))
    congr 1 <;> ring
  one_mul := by
    rintro ⟨a, b⟩
    show Cx.mk (1 * a - 0 * b) (1 * b + 0 * a) = Cx.mk a b
    congr 1 <;> ring
  mul_one := by
    rintro ⟨a, b⟩
    show Cx.mk (a * 1 - b * 0) (a * 0 + b * 1) = Cx.mk a b
    congr 1 <;> ring
  left_distrib := by
    rintro ⟨a, b⟩ ⟨c, d⟩ ⟨e, f⟩
    show Cx.mk (a * (c + e) - b * (d + f)) (a * (d + f) + b * (c + e))
      = Cx.mk (a * c - b * d + (a * e - b * f)) (a * d + b * c + (a * f + b * e))
    congr 1 <;> ring
  right_distrib := by
    rintro ⟨a, b⟩ ⟨c, d⟩ ⟨e, f⟩
    show Cx.mk ((a + c) * e - (b + d) * f) ((a + c) * f + (b + d) * e)
      = Cx.mk (a * e - b * f + (c * e - d * f)) (a * f + b * e + (c * f + d * e))
    congr 1 <;> ring
  zero_mul := by
    rintro ⟨a, b⟩
    show Cx.mk (0 * a - 0 * b) (0 * b + 0 * a) = Cx.mk 0 0
    congr 1 <;> ring
  mul_zero := by
    rintro ⟨a, b⟩
    show Cx.mk (a * 0 - b * 0) (a * 0 + b * 0) = Cx.mk 0 0
    congr 1 <;> ring
  mul_comm := by
    rintro ⟨a, b⟩ ⟨c, d⟩
    show Cx.mk (a * c - b * d) (a * d + b * c) = Cx.mk (c * a - d * b) (c * b + d * a)
    congr 1 <;> ring
  nsmul := nsmulRec
  zsmul := zsmulRec

/-- Complex conjugation as the `star` of `Cx K`, so that the conjugate transpose of a matrix
and the Hermitian product of vectors are the library ones. -/
instance [CommRing K] : StarRing (Cx K) where
  star := Cx.conj
  star_involutive := by
    rintro ⟨a, b⟩
    show Cx.mk a (- -b) = Cx.mk a b
    rw [neg_neg]
  star_mul := by
    rintro ⟨a, b⟩ ⟨c, d⟩
    show Cx.mk (a * c - b * d) (-(a * d + b * c))
      = Cx.mk (c * a - -d * -b) (c * -b + -d * a)
    congr 1 <;> ring
  star_add := by
    rintro ⟨a, b⟩ ⟨c, d⟩
    show Cx.mk (a + c) (-(b + d)) = Cx.mk (a + c) (-b + -d)
    congr 1
    ring

end Cx

/-! Types and constants of class `QLB` -/

/-- The type `cmat_t = matND<complex_t>` at size 4 (`cmat_t Q(4)`), read with `Q(r,c)`. -/
abbrev cmat_t (K : Type) := Matrix (Fin 4) (Fin 4) (Cx K)

/-- The type `c4mat_t = matN4D<complex_t>`: one 4-vector per lattice site, read with
`m(i,j,k)`.  Sites are indexed by the `int` loop variables. -/
abbrev c4mat_t (K : Type) := Int → Int → Fin 4 → Cx K

/-- The assignment `Q(r,c) = v`. -/
def cmat_t.set {K : Type} (Q : cmat_t K) (r c : Fin 4) (v : Cx K) : cmat_t K :=
  Matrix.of fun r1 c1 => if r1 = r ∧ c1 = c then v else Q r1 c1

/-- The assignment `m(i,j,k) = v`. -/
def c4mat_t.set {K : Type} (m : c4mat_t K) (i j : Int) (k : Fin 4) (v : Cx K) : c4mat_t K :=
  fun i1 j1 k1 => if i1 = i ∧ j1 = j ∧ k1 = k then v else m i1 j1 k1

/-- Modelled from the spec: the constant `QLB::img` is declared in `QLB.hpp` and defined in
`QLB.cpp`, which is not part of the sources; the spec calls it the imaginary unit. -/
def img {K : Type} [Zero K] [One K] : Cx K := ⟨0, 1⟩

/-- Modelled from the spec: the constant `QLB::one` is declared in `QLB.hpp` and defined in
`QLB.cpp`, which is not part of the sources; the spec writes it as the number 1. -/
def one {K : Type} [Zero K] [One K] : Cx K := ⟨1, 0⟩

/-- The simulation variables of class `QLB` that the kernel reads.  `L_` is `unsigned`,
`V_indx_` is `int`, the others are `float_t`. -/
structure Config (K : Type) where
  L_ : Nat
  dx_ : K
  mass_ : K
  dt_ : K
  delta0_ : K
  V_indx_ : Int

/-- The expression `L_-1` in `unsigned` (32 bit) arithmetic. -/
def L_minus_1 (L_ : Nat) : Nat := (L_ + (2 ^ 32 - 1)) % 2 ^ 32

section Kernel

variable {K : Type} [Field K]

/-! Potential -/

/-- The function `QLB::V_harmonic`. -/
def V_harmonic (c : Config K) (i j : Int) : K :=
  let w0 : K := 1.0 / (2.0 * c.mass_ * c.delta0_ * c.delta0_)
  let x : K := c.dx_ * ((i : K) - 0.5 * ((L_minus_1 c.L_ : Nat) : K))
  let y : K := c.dx_ * ((j : K) - 0.5 * ((L_minus_1 c.L_ : Nat) : K))
  (-0.5) * c.mass_ * w0 * w0 * (x * x + y * y)

/-- The harmonic potential as the doc comment of `V_harmonic` in `QLB.hpp` words it:
`V(r) = 1/2 * m * w0^2 * r^2`, with `r² = x² + y²` the squared distance of the site from
the grid centre and `w0 = 1/(2·mass·δ0²)`. -/
def V_harmonic_documented (c : Config K) (i j : Int) : K :=
  let w0 : K := 1 / (2 * c.mass_ * c.delta0_ ^ 2)
  let x : K := c.dx_ * ((i : K) - 0.5 * ((c.L_ : K) - 1))
  let y : K := c.dx_ * ((j : K) - 0.5 * ((c.L_ : K) - 1))
  1 / 2 * c.mass_ * w0 ^ 2 * (x ^ 2 + y ^ 2)

/-- The function `QLB::V_free`. -/
def V_free (_c : Config K) (_i _j : Int) : K := 0

/-- The local `V_ij` of `Qhat_X` and `Qhat_Y`: harmonic when `V_indx_ == 0`, free
otherwise. -/
def V_ij (c : Config K) (i j : Int) : K :=
  if c.V_indx_ = 0 then V_harmonic c i j else V_free c i j

/-! Collision matrix -/

/-- The local `m = 0.5 * mass_ * dt_` of `Qhat_X` / `Qhat_Y`. -/
def coll_m (mass dt : K) : K := 0.5 * mass * dt

/-- The local `g = 0.5 * V_ij * dt_` of `Qhat_X` / `Qhat_Y`. -/
def coll_g (V dt : K) : K := 0.5 * V * dt

/-- The local `omega = m*m - g*g` of `Qhat_X` / `Qhat_Y`. -/
def coll_omega (mass dt V : K) : K :=
  coll_m mass dt * coll_m mass dt - coll_g V dt * coll_g V dt

/-- The divisor `one + float_t(0.25)*omega - img*g` of the locals `a` and `b`. -/
def coll_den (mass dt V : K) : Cx K :=
  one + Cx.ofReal (0.25 * coll_omega mass dt V) - img * Cx.ofReal (coll_g V dt)

/-- The local `a` of `Qhat_X` / `Qhat_Y`. -/
def coll_a (mass dt V : K) : Cx K :=
  (one - Cx.ofReal (0.25 * coll_omega mass dt V)) / coll_den mass dt V

/-- The local `b` of `Qhat_X` / `Qhat_Y`. -/
def coll_b (mass dt V : K) : Cx K :=
  Cx.ofReal (coll_m mass dt) / coll_den mass dt V

/-- Lines 49–77 of `QLB::Qhat_X`: the sixteen assignments to `Q`, for a given value of the
local `V_ij`. -/
def Qhat_X_at (mass dt V : K) (Q : cmat_t K) : cmat_t K :=
  let a := coll_a mass dt V
  let b := coll_b mass dt V
  let Q := Q.set 0 0 a
  let Q := Q.set 0 1 0
  let Q := Q.set 0 2 0
  let Q := Q.set 0 3 (b * img)
  let Q := Q.set 1 0 0
  let Q := Q.set 1 1 a
  let Q := Q.set 1 2 (Cx.ofReal 2.0 * b * img)
  let Q := Q.set 1 3 (b * img)
  let Q := Q.set 2 0 (Cx.ofReal (-0.5) * b * img)
  let Q := Q.set 2 1 (Cx.ofReal 0.5 * b * img)
  let Q := Q.set 2 2 a
  let Q := Q.set 2 3 0
  let Q := Q.set 3 0 (b * img)
  let Q := Q.set 3 1 0
  let Q := Q.set 3 2 0
  let Q := Q.set 3 3 a
  Q

/-- The function `QLB::Qhat_X`; the reference parameter `Q` is passed in and returned. -/
def Qhat_X (c : Config K) (i j : Int) (Q : cmat_t K) : cmat_t K :=
  Qhat_X_at c.mass_ c.dt_ (V_ij c i j) Q

/-- Lines 90–117 of `QLB::Qhat_Y`: the sixteen assignments to `Q`, for a given value of the
local `V_ij`. -/
def Qhat_Y_at (mass dt V : K) (Q : cmat_t K) : cmat_t K :=
  let a := coll_a mass dt V
  let b := coll_b mass dt V
  let Q := Q.set 0 0 a
  let Q := Q.set 0 1 0
  let Q := Q.set 0 2 0
  let Q := Q.set 0 3 (b * img)
  let Q := Q.set 1 0 0
  let Q := Q.set 1 1 a
  let Q := Q.set 1 2 (Cx.ofReal 2.0 * b * img)
  let Q := Q.set 1 3 (b * img)
  let Q := Q.set 2 0 (Cx.ofReal (-0.5) * b * img)
  let Q := Q.set 2 1 (Cx.ofReal 0.5 * b * img)
  let Q := Q.set 2 2 a
  let Q := Q.set 2 3 0
  let Q := Q.set 3 0 (b * img)
  let Q := Q.set 3 1 0
  let Q := Q.set 3 2 0
  let Q := Q.set 3 3 a
  Q

/-- The function `QLB::Qhat_Y`; the reference parameter `Q` is passed in and returned. -/
def Qhat_Y (c : Config K) (i j : Int) (Q : cmat_t K) : cmat_t K :=
  Qhat_Y_at c.mass_ c.dt_ (V_ij c i j) Q

/-! The loop phases of `QLB::evolution_CPU`

`int` arithmetic is modelled in `Int` without overflow: the three `L×L×4` buffers of
`complex_t` exist, so `L_` is far below `2³⁰` and neither `const int L = L_` nor
`i - 1 + L` can overflow.  The operator `%` of C++ is `Int.tmod`. -/

/-- The compound assignment `m(i,j,k) += v`. -/
def c4mat_t.add_at (m : c4mat_t K) (i j : Int) (k : Fin 4) (v : Cx K) : c4mat_t K :=
  m.set i j k (m i j k + v)

/-- The loop `for(int i = 0; i < n; ++i) body(i)` acting on a state `σ`. -/
def forLoop {σ : Type} (n : Nat) (body : Int → σ → σ) (s : σ) : σ :=
  (List.range n).foldl (fun s (i : Nat) => body (i : Int) s) s

/-- The loop `for(int k = 0; k < 4; ++k) body(k)` acting on a state `σ`. -/
def forLoop4 {σ : Type} (body : Fin 4 → σ → σ) (s : σ) : σ :=
  (List.finRange 4).foldl (fun s k => body k s) s

/-- The body of the rotation loops at one site `(i,j)`: `dst(i,j,mk) = 0` for every `mk`,
then `dst(i,j,mk) += M(mk,nk) * src(i,j,nk)` for every `mk`, `nk`. -/
def rotate_site (M : cmat_t K) (src : c4mat_t K) (i j : Int) (dst : c4mat_t K) : c4mat_t K :=
  let dst := forLoop4 (fun mk d => d.set i j mk 0) dst
  forLoop4 (fun mk d => forLoop4 (fun nk d => d.add_at i j mk (M mk nk * src i j nk)) d) dst

/-- The rotation loops of `evolution_CPU` (lines 129–142 with `X`, `spinor_`, `spinorrot_`;
181–194 with `Xinv`, `spinorrot_`, `spinor_`; 196–208 with `Y`; 247–259 with `Yinv`):
`dst = M · src` at every site.  The constant matrix `M` is a parameter: `X`, `Xinv`, `Y`,
`Yinv` are declared in `QLB.hpp` and defined outside the sources at hand. -/
def rotate (M : cmat_t K) (L_ : Nat) (src dst : c4mat_t K) : c4mat_t K :=
  forLoop L_ (fun i d => forLoop L_ (fun j d => rotate_site M src i j d) d) dst

/-- The copy loops of `evolution_CPU` (lines 144–153 and 210–219):
`spinoraux_(i,j,k) = spinorrot_(i,j,k)` for `k = 0..3` at every site. -/
def copy_to_aux (L_ : Nat) (rot aux : c4mat_t K) : c4mat_t K :=
  forLoop L_ (fun i a => forLoop L_ (fun j a =>
    let a := a.set i j 0 (rot i j 0)
    let a := a.set i j 1 (rot i j 1)
    let a := a.set i j 2 (rot i j 2)
    let a := a.set i j 3 (rot i j 3)
    a) a) aux

/-- The body of the X collide-and-stream loop at one source site `(i,j)` (lines 160–176).
The state is `spinorrot_` together with the thread-private matrix `Q`. -/
def collide_stream_X_site (c : Config K) (aux : c4mat_t K) (i j : Int)
    (s : c4mat_t K × cmat_t K) : c4mat_t K × cmat_t K :=
  let L : Int := (c.L_ : Int)
  let ia : Int := Int.tmod (i + 1) L
  let ik : Int := Int.tmod (i - 1 + L) L
  let rot := s.1
  let rot := rot.set ia j 0 0
  let rot := rot.set ia j 1 0
  let rot := rot.set ik j 2 0
  let rot := rot.set ik j 3 0
  let Q := Qhat_X c i j s.2
  let rot := forLoop4 (fun nk rot =>
    let rot := rot.add_at ia j 0 (Q 0 nk * aux i j nk)
    let rot := rot.add_at ia j 1 (Q 1 nk * aux i j nk)
    let rot := rot.add_at ik j 2 (Q 2 nk * aux i j nk)
    let rot := rot.add_at ik j 3 (Q 3 nk * aux i j nk)
    rot) rot
  (rot, Q)

/-- The X collide-and-stream loop of `evolution_CPU` (lines 155–179). -/
def collide_stream_X (c : Config K) (aux : c4mat_t K) (s : c4mat_t K × cmat_t K) :
    c4mat_t K × cmat_t K :=
  forLoop c.L_ (fun i s => forLoop c.L_ (fun j s => collide_stream_X_site c aux i j s) s) s

/-- The body of the Y collide-and-stream loop at one source site `(i,j)` (lines 227–243). -/
def collide_stream_Y_site (c : Config K) (aux : c4mat_t K) (i j : Int)
    (s : c4mat_t K × cmat_t K) : c4mat_t K × cmat_t K :=
  let L : Int := (c.L_ : Int)
  let ja : Int := Int.tmod (j + 1) L
  let jk : Int := Int.tmod (j - 1 + L) L
  let rot := s.1
  let rot := rot.set i ja 0 0
  let rot := rot.set i ja 1 0
  let rot := rot.set i jk 2 0
  let rot := rot.set i jk 3 0
  let Q := Qhat_Y c i j s.2
  let rot := forLoop4 (fun nk rot =>
    let rot := rot.add_at i ja 0 (Q 0 nk * aux i j nk)
    let rot := rot.add_at i ja 1 (Q 1 nk * aux i j nk)
    let rot := rot.add_at i jk 2 (Q 2 nk * aux i j nk)
    let rot := rot.add_at i jk 3 (Q 3 nk * aux i j nk)
    rot) rot
  (rot, Q)

/-- The Y collide-and-stream loop of `evolution_CPU` (lines 221–245). -/
def collide_stream_Y (c : Config K) (aux : c4mat_t K) (s : c4mat_t K × cmat_t K) :
    c4mat_t K × cmat_t K :=
  forLoop c.L_ (fun i s => forLoop c.L_ (fun j s => collide_stream_Y_site c aux i j s) s) s

/-- The locals `ia = (i + 1) % L` (line 160) and `ja = (j + 1) % L` (line 227). -/
def idx_a (L i : Int) : Int := Int.tmod (i + 1) L

/-- The locals `ik = (i - 1 + L) % L` (line 161) and `jk = (j - 1 + L) % L` (line 228). -/
def idx_k (L i : Int) : Int := Int.tmod (i - 1 + L) L

/-! The macroscopic variables and the whole step -/

/-- The type `cmat_t = matND<complex_t>` at size `L` (`currentX_`, `currentY_`, `veloX_`,
`veloY_`, `rho_`), read with `m(i,j)`. -/
abbrev cmatL_t (K : Type) := Int → Int → Cx K

/-- The assignment `m(i,j) = v` on an `L×L` matrix. -/
def cmatL_t.set (m : cmatL_t K) (i j : Int) (v : Cx K) : cmatL_t K :=
  fun i1 j1 => if i1 = i ∧ j1 = j then v else m i1 j1

/-- The static constant matrices of class `QLB` that the kernel reads.  They are declared
in `QLB.hpp` and defined outside the sources at hand, so they are parameters. -/
structure Constants (K : Type) where
  X : cmat_t K
  Y : cmat_t K
  Xinv : cmat_t K
  Yinv : cmat_t K
  alphaX : cmat_t K
  alphaY : cmat_t K

/-- The member variables of class `QLB` that the kernel writes. -/
structure State (K : Type) where
  t_ : K
  deltax_ : K
  deltay_ : K
  spinor_ : c4mat_t K
  spinoraux_ : c4mat_t K
  spinorrot_ : c4mat_t K
  currentX_ : cmatL_t K
  currentY_ : cmatL_t K
  veloX_ : cmatL_t K
  veloY_ : cmatL_t K
  rho_ : cmatL_t K

/-- A state that holds the field `f` in `spinor_` and zero everywhere else. -/
def State.ofField [Zero K] (f : c4mat_t K) : State K :=
  ⟨0, 0, 0, f, fun _ _ _ => 0, fun _ _ _ => 0, fun _ _ => 0, fun _ _ => 0, fun _ _ => 0,
    fun _ _ => 0, fun _ _ => 0⟩

/-- What the loop of `calculate_macroscopic_vars` carries: the four local accumulators and
the five member matrices it writes. -/
structure Acc (K : Type) where
  deltax_nom : K
  deltax_den : K
  deltay_nom : K
  deltay_den : K
  currentX_ : cmatL_t K
  currentY_ : cmatL_t K
  veloX_ : cmatL_t K
  veloY_ : cmatL_t K
  rho_ : cmatL_t K

/-- The body of the loop of `calculate_macroscopic_vars` at one site `(i,j)`
(lines 314–344). -/
def macroscopic_site (k : Constants K) (c : Config K) (spinor : c4mat_t K) (i j : Int)
    (a : Acc K) : Acc K :=
  let dV : K := c.dx_ * c.dx_
  let x : K := c.dx_ * ((i : K) - 0.5 * ((L_minus_1 c.L_ : Nat) : K))
  let y : K := c.dx_ * ((j : K) - 0.5 * ((L_minus_1 c.L_ : Nat) : K))
  let deltax_nom := a.deltax_nom + x * x * Cx.norm (spinor i j 0) * dV
  let deltax_den := a.deltax_den + Cx.norm (spinor i j 0) * dV
  let deltay_nom := a.deltay_nom + y * y * Cx.norm (spinor i j 0) * dV
  let deltay_den := a.deltay_den + Cx.norm (spinor i j 0) * dV
  let cur : cmatL_t K × cmatL_t K := (a.currentX_.set i j 0, a.currentY_.set i j 0)
  let cur := forLoop4 (fun is cur => forLoop4 (fun js cur =>
    (cur.1.set i j (cur.1 i j + Cx.conj (spinor i j is) * k.alphaX is js * spinor i j js),
     cur.2.set i j (cur.2 i j + Cx.conj (spinor i j is) * k.alphaY is js * spinor i j js)))
    cur) cur
  let rho := a.rho_.set i j (Cx.ofReal (Cx.norm (spinor i j 0) + Cx.norm (spinor i j 1)
    + Cx.norm (spinor i j 2) + Cx.norm (spinor i j 3)))
  let veloX := a.veloX_.set i j (cur.1 i j / rho i j)
  let veloY := a.veloY_.set i j (cur.2 i j / rho i j)
  ⟨deltax_nom, deltax_den, deltay_nom, deltay_den, cur.1, cur.2, veloX, veloY, rho⟩

/-- The function `QLB::calculate_macroscopic_vars`.  The library function `std::sqrt` is the
parameter `sqrt`. -/
def calculate_macroscopic_vars (sqrt : K → K) (k : Constants K) (c : Config K)
    (st : State K) : State K :=
  let a : Acc K := ⟨0, 0, 0, 0, st.currentX_, st.currentY_, st.veloX_, st.veloY_, st.rho_⟩
  let a := forLoop c.L_ (fun i a => forLoop c.L_ (fun j a =>
    macroscopic_site k c st.spinor_ i j a) a) a
  ⟨st.t_, sqrt (a.deltax_nom / a.deltax_den), sqrt (a.deltay_nom / a.deltay_den),
    st.spinor_, st.spinoraux_, st.spinorrot_,
    a.currentX_, a.currentY_, a.veloX_, a.veloY_, a.rho_⟩

/-- The function `QLB::evolution_CPU` (lines 120–261).  `Q0` is what the local `cmat_t Q(4)`
holds before `Qhat_X` first fills it.  The output to `std::cout` and to `spread.dat`
(lines 263–299) changes no member variable and is left out. -/
def evolution_CPU (sqrt : K → K) (k : Constants K) (c : Config K) (Q0 : cmat_t K)
    (st : State K) : State K :=
  let rot := rotate k.X c.L_ st.spinor_ st.spinorrot_
  let aux := copy_to_aux c.L_ rot st.spinoraux_
  let rq := collide_stream_X c aux (rot, Q0)
  let spinor := rotate k.Xinv c.L_ rq.1 st.spinor_
  let rot := rotate k.Y c.L_ spinor rq.1
  let aux := copy_to_aux c.L_ rot aux
  let rq := collide_stream_Y c aux (rot, rq.2)
  let spinor := rotate k.Yinv c.L_ rq.1 spinor
  calculate_macroscopic_vars sqrt k c
    ⟨st.t_, st.deltax_, st.deltay_, spinor, aux, rq.1,
      st.currentX_, st.currentY_, st.veloX_, st.veloY_, st.rho_⟩

/-- The conjugate transpose `Q†` of a 4×4 complex matrix: `Q†(r,c) = conj (Q(c,r))`. -/
def dagger (Q : cmat_t K) : cmat_t K := Matrix.of fun r c => Cx.conj (Q c r)

/-- The closed form of the collision matrix as the specification words it (§4.3):
`m = 0.5·mass·dt`, `g = 0.5·V·dt`, `ω = m² − g²`, `a = (1 − 0.25ω)/(1 + 0.25ω − i·g)`,
`b = m/(1 + 0.25ω − i·g)` and the four rows `[a,0,0,b·i]`, `[0,a,2b·i,b·i]`,
`[−0.5b·i,0.5b·i,a,0]`, `[b·i,0,0,a]`. -/
def Q_closed_form (mass dt V : K) : cmat_t K :=
  let m : K := 0.5 * mass * dt
  let g : K := 0.5 * V * dt
  let ω : K := m ^ 2 - g ^ 2
  let i : Cx K := ⟨0, 1⟩
  let a : Cx K := (1 - Cx.ofReal (0.25 * ω)) / (1 + Cx.ofReal (0.25 * ω) - i * Cx.ofReal g)
  let b : Cx K := Cx.ofReal m / (1 + Cx.ofReal (0.25 * ω) - i * Cx.ofReal g)
  !![a, 0, 0, b * i;
     0, a, Cx.ofReal 2 * b * i, b * i;
     -(Cx.ofReal 0.5 * b * i), Cx.ofReal 0.5 * b * i, a, 0;
     b * i, 0, 0, a]

/-- Example constants: identity rotation matrices, the Hermitian matrix
`alphaX(r,c) = i·(r − c)` and the identity as `alphaY`. -/
def example_constants : Constants ℚ :=
  ⟨1, 1, 1, 1, Matrix.of fun a b : Fin 4 => (⟨0, (a.val : ℚ) - b.val⟩ : Cx ℚ), 1⟩

/-- Example rotation matrix: block diagonal with blocks `[0,1; 2,1]` and the identity. -/
def example_X : cmat_t ℚ :=
  !![0, 1, 0, 0;
     Cx.ofReal 2, 1, 0, 0;
     0, 0, 1, 0;
     0, 0, 0, 1]

/-- The inverse of `example_X`: blocks `[−1/2,1/2; 1,0]` and the identity. -/
def example_Xinv : cmat_t ℚ :=
  !![Cx.ofReal (-1 / 2), Cx.ofReal (1 / 2), 0, 0;
     1, 0, 0, 0;
     0, 0, 1, 0;
     0, 0, 0, 1]

/-- Example constants with the non-trivial rotation `example_X` on both axes. -/
def example_rotated : Constants ℚ :=
  ⟨example_X, example_X, example_Xinv, example_Xinv, 1, 1⟩

/-- The projector on the forward channels `{0,1}`: the diagonal matrix `diag(1,1,0,0)`. -/
def P_fwd : cmat_t K := Matrix.of fun r c => if r = c ∧ r.val < 2 then 1 else 0

/-- The source index whose channel `k` is streamed to the target index `t`: the backward
neighbour `(t−1+L) mod L` for the forward channels `{0,1}`, the forward neighbour
`(t+1) mod L` for the backward channels `{2,3}`. -/
def stream_src (L : Int) (k : Fin 4) (t : Int) : Int :=
  if k.val < 2 then idx_k L t else idx_a L t

/-- The value one X sweep (rotate with `X`, collide and stream, rotate back with `Xinv`)
leaves at a grid site, written as a sum: `Σ_k Xinv(m,k) · Σ_n Q(k,n) · Σ_p X(n,p) · s(src,j,p)`
with `Q` the collision matrix of the source site `src` of channel `k`. -/
def sweep_X_formula (X Xinv : cmat_t K) (c : Config K) (s : c4mat_t K) : c4mat_t K :=
  fun t j m => ∑ k : Fin 4, Xinv m k *
    ∑ n : Fin 4, Q_closed_form c.mass_ c.dt_ (V_ij c (stream_src c.L_ k t) j) k n *
      ∑ p : Fin 4, X n p * s (stream_src c.L_ k t) j p

/-- The value one Y sweep leaves at a grid site, written as a sum. -/
def sweep_Y_formula (Y Yinv : cmat_t K) (c : Config K) (s : c4mat_t K) : c4mat_t K :=
  fun i t m => ∑ k : Fin 4, Yinv m k *
    ∑ n : Fin 4, Q_closed_form c.mass_ c.dt_ (V_ij c i (stream_src c.L_ k t)) k n *
      ∑ p : Fin 4, Y n p * s i (stream_src c.L_ k t) p

/-- The entrywise complex conjugate of a 4×4 matrix (no transpose). -/
def cconj (Q : cmat_t K) : cmat_t K := Matrix.of fun r c => Cx.conj (Q r c)

/-- The fixed real matrix `N` with rows `[0,0,0,1]`, `[0,0,2,1]`, `[−0.5,0.5,0,0]`,
`[1,0,0,0]`, for which the collision matrix is `a·I + i·b·N`. -/
def N_mat : cmat_t K :=
  !![0, 0, 0, Cx.ofReal 1;
     0, 0, Cx.ofReal 2, Cx.ofReal 1;
     Cx.ofReal (-0.5), Cx.ofReal 0.5, 0, 0;
     Cx.ofReal 1, 0, 0, 0]

/-- The total probability `Σᵢⱼ ρ(i,j)·dx²` of a field on the `L×L` grid, with
`ρ(i,j) = Σ_{k=0..3} |f(i,j,k)|²`. -/
def total_probability (c : Config K) (f : c4mat_t K) : K :=
  ∑ i ∈ Finset.range c.L_, ∑ j ∈ Finset.range c.L_,
    (∑ k : Fin 4, Cx.norm (f (i : Int) (j : Int) k)) * (c.dx_ * c.dx_)

/-- The field shifted cyclically by one site along x: site `i` reads site `(i+1) mod L`. -/
def shift_x (L : Nat) (f : c4mat_t K) : c4mat_t K :=
  fun i j k => f ((i + 1) % (L : Int)) j k

/-- The field shifted cyclically by one site along y: site `j` reads site `(j+1) mod L`. -/
def shift_y (L : Nat) (f : c4mat_t K) : c4mat_t K :=
  fun i j k => f i ((j + 1) % (L : Int)) k

end Kernel

/-! Theorems -/

namespace Cx

variable {K : Type}

theorem ext_iff_parts {z w : Cx K} : z = w ↔ z.re = w.re ∧ z.im = w.im := by
  cases z; cases w; simp

@[ext]
theorem ext {z w : Cx K} (hre : z.re = w.re) (him : z.im = w.im) : z = w :=
  ext_iff_parts.2 ⟨hre, him⟩

@[simp]
theorem zero_re [Zero K] : (0 : Cx K).re = 0 := rfl
@[simp]
theorem zero_im [Zero K] : (0 : Cx K).im = 0 := rfl
@[simp]
theorem one_re [Zero K] [One K] : (1 : Cx K).re = 1 := rfl
@[simp]
theorem one_im [Zero K] [One K] : (1 : Cx K).im = 0 := rfl
@[simp]
theorem ofReal_re [Zero K] (r : K) : (ofReal r).re = r := rfl
@[simp]
theorem ofReal_im [Zero K] (r : K) : (ofReal r).im = 0 := rfl
@[simp]
theorem add_re [Add K] (z w : Cx K) : (z + w).re = z.re + w.re := rfl
@[simp]
theorem add_im [Add K] (z w : Cx K) : (z + w).im = z.im + w.im := rfl
@[simp]
theorem neg_re [Neg K] (z : Cx K) : (-z).re = -z.re := rfl
@[simp]
theorem neg_im [Neg K] (z : Cx K) : (-z).im = -z.im := rfl
@[simp]
theorem sub_re [Sub K] (z w : Cx K) : (z - w).re = z.re - w.re := rfl
@[simp]
theorem sub_im [Sub K] (z w : Cx K) : (z - w).im = z.im - w.im := rfl
@[simp]
theorem mul_re [Add K] [Sub K] [Mul K] (z w : Cx K) :
    (z * w).re = z.re * w.re - z.im * w.im := rfl
@[simp]
theorem mul_im [Add K] [Sub K] [Mul K] (z w : Cx K) :
    (z * w).im = z.re * w.im + z.im * w.re := rfl
@[simp]
theorem conj_re [Neg K] (z : Cx K) : (conj z).re = z.re := rfl
@[simp]
theorem conj_im [Neg K] (z : Cx K) : (conj z).im = -z.im := rfl
@[simp]
theorem div_re [Add K] [Sub K] [Mul K] [Div K] (z w : Cx K) :
    (z / w).re = (z.re * w.re + z.im * w.im) / (w.re * w.re + w.im * w.im) := rfl
@[simp]
theorem div_im [Add K] [Sub K] [Mul K] [Div K] (z w : Cx K) :
    (z / w).im = (z.im * w.re - z.re * w.im) / (w.re * w.re + w.im * w.im) := rfl

end Cx

section EntryLemmas

variable {K : Type}

theorem cmat_set_apply (Q : cmat_t K) (r c : Fin 4) (v : Cx K) (r1 c1 : Fin 4) :
    Q.set r c v r1 c1 = if r1 = r ∧ c1 = c then v else Q r1 c1 := rfl

variable [Field K]

/-! The sixteen assignments of `Qhat_X`, read back entry by entry. -/

@[simp]
theorem Qhat_X_at_00 (mass dt V : K) (Q0 : cmat_t K) :
    Qhat_X_at mass dt V Q0 0 0 = coll_a mass dt V := rfl
@[simp]
theorem Qhat_X_at_01 (mass dt V : K) (Q0 : cmat_t K) :
    Qhat_X_at mass dt V Q0 0 1 = 0 := rfl
@[simp]
theorem Qhat_X_at_02 (mass dt V : K) (Q0 : cmat_t K) :
    Qhat_X_at mass dt V Q0 0 2 = 0 := rfl
@[simp]
theorem Qhat_X_at_03 (mass dt V : K) (Q0 : cmat_t K) :
    Qhat_X_at mass dt V Q0 0 3 = coll_b mass dt V * img := rfl
@[simp]
theorem Qhat_X_at_10 (mass dt V : K) (Q0 : cmat_t K) :
    Qhat_X_at mass dt V Q0 1 0 = 0 := rfl
@[simp]
theorem Qhat_X_at_11 (mass dt V : K) (Q0 : cmat_t K) :
    Qhat_X_at mass dt V Q0 1 1 = coll_a mass dt V := rfl
@[simp]
theorem Qhat_X_at_12 (mass dt V : K) (Q0 : cmat_t K) :
    Qhat_X_at mass dt V Q0 1 2 = Cx.ofReal 2.0 * coll_b mass dt V * img := rfl
@[simp]
theorem Qhat_X_at_13 (mass dt V : K) (Q0 : cmat_t K) :
    Qhat_X_at mass dt V Q0 1 3 = coll_b mass dt V * img := rfl
@[simp]
theorem Qhat_X_at_20 (mass dt V : K) (Q0 : cmat_t K) :
    Qhat_X_at mass dt V Q0 2 0 = Cx.ofReal (-0.5) * coll_b mass dt V * img := rfl
@[simp]
theorem Qhat_X_at_21 (mass dt V : K) (Q0 : cmat_t K) :
    Qhat_X_at mass dt V Q0 2 1 = Cx.ofReal 0.5 * coll_b mass dt V * img := rfl
@[simp]
theorem Qhat_X_at_22 (mass dt V : K) (Q0 : cmat_t K) :
    Qhat_X_at mass dt V Q0 2 2 = coll_a mass dt V := rfl
@[simp]
theorem Qhat_X_at_23 (mass dt V : K) (Q0 : cmat_t K) :
    Qhat_X_at mass dt V Q0 2 3 = 0 := rfl
@[simp]
theorem Qhat_X_at_30 (mass dt V : K) (Q0 : cmat_t K) :
    Qhat_X_at mass dt V Q0 3 0 = coll_b mass dt V * img := rfl
@[simp]
theorem Qhat_X_at_31 (mass dt V : K) (Q0 : cmat_t K) :
    Qhat_X_at mass dt V Q0 3 1 = 0 := rfl
@[simp]
theorem Qhat_X_at_32 (mass dt V : K) (Q0 : cmat_t K) :
    Qhat_X_at mass dt V Q0 3 2 = 0 := rfl
@[simp]
theorem Qhat_X_at_33 (mass dt V : K) (Q0 : cmat_t K) :
    Qhat_X_at mass dt V Q0 3 3 = coll_a mass dt V := rfl

/-- The body of `Qhat_Y` is the body of `Qhat_X`. -/
theorem Qhat_Y_at_eq_Qhat_X_at (mass dt V : K) (Q0 : cmat_t K) :
    Qhat_Y_at mass dt V Q0 = Qhat_X_at mass dt V Q0 := rfl

end EntryLemmas

section CollisionLemmas

variable {K : Type} [LinearOrderedField K]

theorem coll_den_re (mass dt V : K) :
    (coll_den mass dt V).re = 1 + 0.25 * coll_omega mass dt V := by
  simp [coll_den, one, img]

theorem coll_den_im (mass dt V : K) : (coll_den mass dt V).im = -coll_g V dt := by
  simp [coll_den, one, img]

/-- The squared magnitude of the divisor is positive. -/
theorem coll_den_norm_pos (mass dt V : K) :
    0 < (coll_den mass dt V).re * (coll_den mass dt V).re
      + (coll_den mass dt V).im * (coll_den mass dt V).im := by
  rw [coll_den_re, coll_den_im]
  by_cases hg : coll_g V dt = 0
  · have h1 : 0 < 1 + 0.25 * coll_omega mass dt V := by
      simp only [coll_omega, hg]
      norm_num
      nlinarith [mul_self_nonneg (coll_m mass dt)]
    nlinarith [mul_pos h1 h1]
  · have h2 : 0 < coll_g V dt * coll_g V dt := mul_self_pos.2 hg
    nlinarith [mul_self_nonneg (1 + 0.25 * coll_omega mass dt V)]

/-- The squared magnitude of a real number divided by a complex one. -/
theorem norm_ofReal_div (u : K) (d : Cx K) (hd : d.re * d.re + d.im * d.im ≠ 0) :
    Cx.norm (Cx.ofReal u / d) = u * u / (d.re * d.re + d.im * d.im) := by
  simp only [Cx.norm, Cx.div_re, Cx.div_im, Cx.ofReal_re, Cx.ofReal_im]
  field_simp
  ring

theorem one_sub_ofReal (r : K) : (one : Cx K) - Cx.ofReal r = Cx.ofReal (1 - r) := by
  ext <;> simp [one]

/-- The coefficients satisfy `|a|² + |b|² = 1`. -/
theorem coll_norm_a_add_norm_b (mass dt V : K) :
    Cx.norm (coll_a mass dt V) + Cx.norm (coll_b mass dt V) = 1 := by
  have hne := (coll_den_norm_pos mass dt V).ne.symm
  rw [coll_a, coll_b, one_sub_ofReal, norm_ofReal_div _ _ hne, norm_ofReal_div _ _ hne,
    ← add_div, div_eq_one_iff_eq hne, coll_den_re, coll_den_im, coll_omega]
  norm_num
  ring

/-- The coefficient `b` vanishes exactly when `m` does. -/
theorem coll_norm_b_eq_zero_iff (mass dt V : K) :
    Cx.norm (coll_b mass dt V) = 0 ↔ mass * dt = 0 := by
  have hne := (coll_den_norm_pos mass dt V).ne.symm
  rw [coll_b, norm_ofReal_div _ _ hne, div_eq_zero_iff, coll_m]
  constructor
  · rintro (h | h)
    · have h3 : (0.5 : K) * mass * dt = 0 := mul_self_eq_zero.1 h
      have h4 : (0.5 : K) * (mass * dt) = 0 := by rw [← mul_assoc]; exact h3
      rcases mul_eq_zero.1 h4 with h5 | h5
      · norm_num at h5
      · exact h5
    · exact absurd h hne
  · intro h
    left
    rw [show (0.5 : K) * mass * dt = 0.5 * (mass * dt) from mul_assoc _ _ _, h]
    simp

theorem coll_b_eq_zero (mass dt V : K) (h : mass * dt = 0) : coll_b mass dt V = 0 := by
  ext <;> simp [coll_b, coll_m, mul_assoc, h]

/-- Entry `(0,0)` of `Q†Q` for the matrix written by `Qhat_X`. -/
theorem dagger_mul_self_entry (mass dt V : K) (Q0 : cmat_t K) :
    ((dagger (Qhat_X_at mass dt V Q0) * Qhat_X_at mass dt V Q0) 0 0).re
      = Cx.norm (coll_a mass dt V) + (1 + 0.25) * Cx.norm (coll_b mass dt V) := by
  simp [Matrix.mul_apply, Fin.sum_univ_four, dagger, img, Cx.norm]
  norm_num
  ring

/-- With `b = 0` the matrix written by `Qhat_X` is unitary. -/
theorem dagger_mul_self_diag (mass dt V : K) (Q0 : cmat_t K) (hb : coll_b mass dt V = 0) :
    dagger (Qhat_X_at mass dt V Q0) * Qhat_X_at mass dt V Q0 = 1 := by
  have ha := coll_norm_a_add_norm_b mass dt V
  rw [hb] at ha
  simp only [Cx.norm, Cx.zero_re, Cx.zero_im, mul_zero, add_zero] at ha
  ext r c <;> fin_cases r <;> fin_cases c <;>
    simp [Matrix.mul_apply, Fin.sum_univ_four, dagger, ha, hb] <;> ring

theorem coll_a_eq_spec (mass dt V : K) :
    coll_a mass dt V =
      (1 - Cx.ofReal (0.25 * ((0.5 * mass * dt) ^ 2 - (0.5 * V * dt) ^ 2))) /
        (1 + Cx.ofReal (0.25 * ((0.5 * mass * dt) ^ 2 - (0.5 * V * dt) ^ 2))
          - (⟨0, 1⟩ : Cx K) * Cx.ofReal (0.5 * V * dt)) := by
  simp only [coll_a, coll_den, coll_omega, coll_m, coll_g, pow_two]
  rfl

theorem coll_b_eq_spec (mass dt V : K) :
    coll_b mass dt V =
      Cx.ofReal (0.5 * mass * dt) /
        (1 + Cx.ofReal (0.25 * ((0.5 * mass * dt) ^ 2 - (0.5 * V * dt) ^ 2))
          - (⟨0, 1⟩ : Cx K) * Cx.ofReal (0.5 * V * dt)) := by
  simp only [coll_b, coll_den, coll_omega, coll_m, coll_g, pow_two]
  rfl

theorem Qhat_X_at_eq_closed_form (mass dt V : K) (Q0 : cmat_t K) :
    Qhat_X_at mass dt V Q0 = Q_closed_form mass dt V := by
  simp only [Q_closed_form, ← coll_a_eq_spec, ← coll_b_eq_spec]
  ext r c <;> fin_cases r <;> fin_cases c <;> simp [img] <;> norm_num

theorem L_minus_1_eq (L : Nat) (h1 : 1 ≤ L) (h32 : L < 2 ^ 32) : L_minus_1 L = L - 1 := by
  unfold L_minus_1
  omega

end CollisionLemmas

section LoopLemmas

variable {K : Type}

theorem c4mat_set_apply (m : c4mat_t K) (i j : Int) (k : Fin 4) (v : Cx K)
    (i1 j1 : Int) (k1 : Fin 4) :
    m.set i j k v i1 j1 k1 = if i1 = i ∧ j1 = j ∧ k1 = k then v else m i1 j1 k1 := rfl

theorem c4mat_add_at_apply [Field K] (m : c4mat_t K) (i j : Int) (k : Fin 4) (v : Cx K)
    (i1 j1 : Int) (k1 : Fin 4) :
    m.add_at i j k v i1 j1 k1
      = if i1 = i ∧ j1 = j ∧ k1 = k then m i j k + v else m i1 j1 k1 := rfl

theorem forLoop4_eq {σ : Type} (body : Fin 4 → σ → σ) (s : σ) :
    forLoop4 body s = body 3 (body 2 (body 1 (body 0 s))) := rfl

/-- A quantity that every step either sets to `v` or leaves alone stays at `v`. -/
theorem foldl_get_inv {α σ β : Type} (step : σ → α → σ) (get : σ → β) (v : β) (l : List α)
    (h : ∀ a ∈ l, ∀ s, get (step s a) = v ∨ get (step s a) = get s)
    (s : σ) (hs : get s = v) : get (l.foldl step s) = v := by
  induction l generalizing s with
  | nil => exact hs
  | cons x xs ih =>
    rw [List.foldl_cons]
    apply ih (fun a ha => h a (List.mem_cons_of_mem x ha))
    rcases h x (List.mem_cons_self x xs) s with h1 | h1
    · exact h1
    · rw [h1, hs]

/-- A quantity that no step of the loop changes is the same after the loop. -/
theorem foldl_get_frame {α σ β : Type} (step : σ → α → σ) (get : σ → β) (l : List α)
    (h : ∀ a ∈ l, ∀ s, get (step s a) = get s) (s : σ) :
    get (l.foldl step s) = get s :=
  foldl_get_inv step get (get s) l (fun a ha t => by
    by_cases e : get t = get s
    · left; rw [h a ha t, e]
    · right; exact h a ha t) s rfl

/-- A quantity that one step of the loop sets to `v` and the other steps leave alone is
`v` after the loop. -/
theorem foldl_get_hit {α σ β : Type} (step : σ → α → σ) (get : σ → β) (v : β) (l : List α)
    (a0 : α) (ha0 : a0 ∈ l) (h1 : ∀ s, get (step s a0) = v)
    (h2 : ∀ a ∈ l, a ≠ a0 → ∀ s, get (step s a) = get s) (s : σ) :
    get (l.foldl step s) = v := by
  induction l generalizing s with
  | nil => cases ha0
  | cons x xs ih =>
    rw [List.foldl_cons]
    by_cases hx : x = a0
    · apply foldl_get_inv
      · intro a ha t
        by_cases e : a = a0
        · left; rw [e]; exact h1 t
        · right; exact h2 a (List.mem_cons_of_mem x ha) e t
      · rw [hx]; exact h1 s
    · have hmem : a0 ∈ xs := by
        rcases List.mem_cons.1 ha0 with h | h
        · exact absurd h.symm hx
        · exact h
      exact ih hmem (fun a ha => h2 a (List.mem_cons_of_mem x ha)) _

theorem forLoop_get_frame {σ β : Type} (n : Nat) (body : Int → σ → σ) (get : σ → β)
    (h : ∀ i : Nat, i < n → ∀ s, get (body (i : Int) s) = get s) (s : σ) :
    get (forLoop n body s) = get s := by
  unfold forLoop
  exact foldl_get_frame _ get _ (fun a ha t => h a (List.mem_range.1 ha) t) s

theorem forLoop_get_hit {σ β : Type} (n : Nat) (body : Int → σ → σ) (get : σ → β) (v : β)
    (i0 : Nat) (hi0 : i0 < n) (h1 : ∀ s, get (body (i0 : Int) s) = v)
    (h2 : ∀ i : Nat, i < n → i ≠ i0 → ∀ s, get (body (i : Int) s) = get s) (s : σ) :
    get (forLoop n body s) = v := by
  unfold forLoop
  exact foldl_get_hit _ get v _ i0 (List.mem_range.2 hi0) h1
    (fun a ha hne t => h2 a (List.mem_range.1 ha) hne t) s

variable [LinearOrderedField K]

/-- What one iteration of the X collide-and-stream loop leaves in `spinorrot_`. -/
theorem collide_stream_X_site_apply (c : Config K) (aux : c4mat_t K) (i j : Int)
    (s : c4mat_t K × cmat_t K) (ti tj : Int) (tk : Fin 4) :
    (collide_stream_X_site c aux i j s).1 ti tj tk =
      if tj = j ∧ ti = (if tk.val < 2 then Int.tmod (i + 1) (c.L_ : Int)
                        else Int.tmod (i - 1 + (c.L_ : Int)) (c.L_ : Int))
      then ∑ n : Fin 4, Qhat_X c i j s.2 tk n * aux i j n
      else s.1 ti tj tk := by
  simp only [collide_stream_X_site, forLoop4_eq, Fin.sum_univ_four]
  generalize Qhat_X c i j s.2 = Q
  generalize Int.tmod (i + 1) (c.L_ : Int) = ia
  generalize Int.tmod (i - 1 + (c.L_ : Int)) (c.L_ : Int) = ik
  by_cases hj : tj = j <;> by_cases ha : ti = ia <;> by_cases hk : ti = ik <;>
    fin_cases tk <;> simp [c4mat_add_at_apply, c4mat_set_apply, hj, ha, hk] <;>
    simp_all

theorem emod_succ (L i : Nat) (h : i < L) :
    ((i : Int) + 1) % (L : Int) = if i + 1 = L then 0 else (i : Int) + 1 := by
  split_ifs with e
  · have e2 : ((i : Int) + 1) = (L : Int) := by exact_mod_cast e
    rw [e2, Int.emod_self]
  · exact Int.emod_eq_of_lt (by omega) (by omega)

theorem emod_pred (L i : Nat) (h : i < L) :
    ((i : Int) - 1 + (L : Int)) % (L : Int) = if i = 0 then (L : Int) - 1 else (i : Int) - 1 := by
  split_ifs with e
  · subst e
    exact Int.emod_eq_of_lt (by simp; omega) (by simp)
  · rw [Int.add_emod_self]
    exact Int.emod_eq_of_lt (by omega) (by omega)

theorem tmod_succ (L i : Nat) (_h : i < L) :
    Int.tmod ((i : Int) + 1) (L : Int) = ((i : Int) + 1) % (L : Int) :=
  Int.tmod_eq_emod (by omega) (by omega)

theorem tmod_pred (L i : Nat) (h : i < L) :
    Int.tmod ((i : Int) - 1 + (L : Int)) (L : Int) = ((i : Int) - 1 + (L : Int)) % (L : Int) :=
  Int.tmod_eq_emod (by omega) (by omega)

/-- The forward shift is injective on `[0,L)`. -/
theorem emod_succ_inj (L i i1 : Nat) (h : i < L) (h1 : i1 < L)
    (e : ((i : Int) + 1) % (L : Int) = ((i1 : Int) + 1) % (L : Int)) : i = i1 := by
  rw [emod_succ L i h, emod_succ L i1 h1] at e
  split_ifs at e <;> omega

/-- The backward shift is injective on `[0,L)`. -/
theorem emod_pred_inj (L i i1 : Nat) (h : i < L) (h1 : i1 < L)
    (e : ((i : Int) - 1 + (L : Int)) % (L : Int) = ((i1 : Int) - 1 + (L : Int)) % (L : Int)) :
    i = i1 := by
  rw [emod_pred L i h, emod_pred L i1 h1] at e
  split_ifs at e <;> omega

/-- After the X collide-and-stream loop, the cell that source `(i,j)` targets in channel `k`
holds row `k` of the collision matrix of `(i,j)` applied to the source values. -/
theorem collide_stream_X_target (c : Config K) (aux : c4mat_t K) (s : c4mat_t K × cmat_t K)
    (i j : Nat) (hi : i < c.L_) (hj : j < c.L_) (k : Fin 4) :
    (collide_stream_X c aux s).1
        (if k.val < 2 then ((i : Int) + 1) % (c.L_ : Int)
          else ((i : Int) - 1 + (c.L_ : Int)) % (c.L_ : Int)) (j : Int) k
      = ∑ n : Fin 4, Q_closed_form c.mass_ c.dt_ (V_ij c i j) k n * aux i j n := by
  unfold collide_stream_X
  refine forLoop_get_hit c.L_ _ (fun t : c4mat_t K × cmat_t K => t.1 _ (j : Int) k) _ i hi
    (fun t => ?_) (fun i1 hi1 hne t => ?_) s
  · refine forLoop_get_hit c.L_ _ (fun t : c4mat_t K × cmat_t K => t.1 _ (j : Int) k) _ j hj
      (fun u => ?_) (fun j1 hj1 hne u => ?_) t
    · simp only [collide_stream_X_site_apply, tmod_succ c.L_ i hi, tmod_pred c.L_ i hi,
        Qhat_X, Qhat_X_at_eq_closed_form]
      simp
    · simp only [collide_stream_X_site_apply]
      rw [if_neg]
      rintro ⟨e, -⟩
      exact hne (by exact_mod_cast e.symm)
  · refine forLoop_get_frame c.L_ _ (fun t : c4mat_t K × cmat_t K => t.1 _ (j : Int) k)
      (fun j1 hj1 u => ?_) t
    simp only [collide_stream_X_site_apply, tmod_succ c.L_ i1 hi1, tmod_pred c.L_ i1 hi1]
    rw [if_neg]
    rintro ⟨-, e⟩
    split_ifs at e
    · exact hne (emod_succ_inj c.L_ i i1 hi hi1 e).symm
    · exact hne (emod_pred_inj c.L_ i i1 hi hi1 e).symm

/-- What one iteration of the Y collide-and-stream loop leaves in `spinorrot_`. -/
theorem collide_stream_Y_site_apply (c : Config K) (aux : c4mat_t K) (i j : Int)
    (s : c4mat_t K × cmat_t K) (ti tj : Int) (tk : Fin 4) :
    (collide_stream_Y_site c aux i j s).1 ti tj tk =
      if ti = i ∧ tj = (if tk.val < 2 then Int.tmod (j + 1) (c.L_ : Int)
                        else Int.tmod (j - 1 + (c.L_ : Int)) (c.L_ : Int))
      then ∑ n : Fin 4, Qhat_Y c i j s.2 tk n * aux i j n
      else s.1 ti tj tk := by
  simp only [collide_stream_Y_site, forLoop4_eq, Fin.sum_univ_four]
  generalize Qhat_Y c i j s.2 = Q
  generalize Int.tmod (j + 1) (c.L_ : Int) = ja
  generalize Int.tmod (j - 1 + (c.L_ : Int)) (c.L_ : Int) = jk
  by_cases hi : ti = i <;> by_cases ha : tj = ja <;> by_cases hk : tj = jk <;>
    fin_cases tk <;> simp [c4mat_add_at_apply, c4mat_set_apply, hi, ha, hk] <;>
    simp_all

/-- After the Y collide-and-stream loop, the cell that source `(i,j)` targets in channel `k`
holds row `k` of the collision matrix of `(i,j)` applied to the source values. -/
theorem collide_stream_Y_target (c : Config K) (aux : c4mat_t K) (s : c4mat_t K × cmat_t K)
    (i j : Nat) (hi : i < c.L_) (hj : j < c.L_) (k : Fin 4) :
    (collide_stream_Y c aux s).1 (i : Int)
        (if k.val < 2 then ((j : Int) + 1) % (c.L_ : Int)
          else ((j : Int) - 1 + (c.L_ : Int)) % (c.L_ : Int)) k
      = ∑ n : Fin 4, Q_closed_form c.mass_ c.dt_ (V_ij c i j) k n * aux i j n := by
  unfold collide_stream_Y
  refine forLoop_get_hit c.L_ _ (fun t : c4mat_t K × cmat_t K => t.1 (i : Int) _ k) _ i hi
    (fun t => ?_) (fun i1 hi1 hne t => ?_) s
  · refine forLoop_get_hit c.L_ _ (fun t : c4mat_t K × cmat_t K => t.1 (i : Int) _ k) _ j hj
      (fun u => ?_) (fun j1 hj1 hne u => ?_) t
    · simp only [collide_stream_Y_site_apply, tmod_succ c.L_ j hj, tmod_pred c.L_ j hj,
        Qhat_Y, Qhat_Y_at_eq_Qhat_X_at, Qhat_X_at_eq_closed_form]
      simp
    · simp only [collide_stream_Y_site_apply, tmod_succ c.L_ j1 hj1, tmod_pred c.L_ j1 hj1]
      rw [if_neg]
      rintro ⟨-, e⟩
      split_ifs at e
      · exact hne (emod_succ_inj c.L_ j j1 hj hj1 e).symm
      · exact hne (emod_pred_inj c.L_ j j1 hj hj1 e).symm
  · refine forLoop_get_frame c.L_ _ (fun t : c4mat_t K × cmat_t K => t.1 (i : Int) _ k)
      (fun j1 hj1 u => ?_) t
    simp only [collide_stream_Y_site_apply]
    rw [if_neg]
    rintro ⟨e, -⟩
    exact hne (by exact_mod_cast e.symm)

/-- What the rotation loop body leaves in `dst` after site `(i,j)`. -/
theorem rotate_site_apply (M : cmat_t K) (src dst : c4mat_t K) (i j ti tj : Int) (tk : Fin 4) :
    rotate_site M src i j dst ti tj tk =
      if ti = i ∧ tj = j then ∑ n : Fin 4, M tk n * src i j n else dst ti tj tk := by
  simp only [rotate_site, forLoop4_eq, Fin.sum_univ_four]
  by_cases hi : ti = i <;> by_cases hj : tj = j <;>
    fin_cases tk <;> simp [c4mat_add_at_apply, c4mat_set_apply, hi, hj]

/-- After a rotation loop every site of the grid holds `M · src`. -/
theorem rotate_apply_in (M : cmat_t K) (L : Nat) (src dst : c4mat_t K)
    (i j : Nat) (hi : i < L) (hj : j < L) (k : Fin 4) :
    rotate M L src dst (i : Int) (j : Int) k = ∑ n : Fin 4, M k n * src i j n := by
  unfold rotate
  refine forLoop_get_hit L _ (fun t : c4mat_t K => t (i : Int) (j : Int) k) _ i hi
    (fun t => ?_) (fun i1 hi1 hne t => ?_) dst
  · refine forLoop_get_hit L _ (fun t : c4mat_t K => t (i : Int) (j : Int) k) _ j hj
      (fun u => ?_) (fun j1 hj1 hne u => ?_) t
    · simp [rotate_site_apply]
    · simp only [rotate_site_apply]
      rw [if_neg]
      rintro ⟨-, e⟩
      exact hne (by exact_mod_cast e.symm)
  · refine forLoop_get_frame L _ (fun t : c4mat_t K => t (i : Int) (j : Int) k)
      (fun j1 hj1 u => ?_) t
    simp only [rotate_site_apply]
    rw [if_neg]
    rintro ⟨e, -⟩
    exact hne (by exact_mod_cast e.symm)

/-- A rotation loop leaves every cell outside the grid untouched. -/
theorem rotate_apply_out (M : cmat_t K) (L : Nat) (src dst : c4mat_t K)
    (ti tj : Int) (k : Fin 4) (h : ¬ (0 ≤ ti ∧ ti < L ∧ 0 ≤ tj ∧ tj < L)) :
    rotate M L src dst ti tj k = dst ti tj k := by
  unfold rotate
  refine forLoop_get_frame L _ (fun t : c4mat_t K => t ti tj k) (fun i1 hi1 t => ?_) dst
  refine forLoop_get_frame L _ (fun t : c4mat_t K => t ti tj k) (fun j1 hj1 u => ?_) t
  simp only [rotate_site_apply]
  rw [if_neg]
  rintro ⟨e1, e2⟩
  apply h
  subst e1 e2
  omega

end LoopLemmas

section MasslessFree

variable {K : Type} [LinearOrderedField K]

/-- With `mass = 0` and the free potential the collision is trivial. -/
theorem massless_free_facts (c : Config K) (i j : Int) (Q0 : cmat_t K)
    (hm : c.mass_ = 0) (hV : c.V_indx_ ≠ 0) :
    V_ij c i j = 0 ∧
    coll_den c.mass_ c.dt_ (V_ij c i j) = 1 ∧
    coll_a c.mass_ c.dt_ (V_ij c i j) = 1 ∧
    coll_b c.mass_ c.dt_ (V_ij c i j) = 0 ∧
    Qhat_X c i j Q0 = 1 ∧ Qhat_Y c i j Q0 = 1 := by
  have hv : V_ij c i j = 0 := by simp [V_ij, hV, V_free]
  have hd : coll_den c.mass_ c.dt_ (V_ij c i j) = 1 := by
    rw [hv, hm]
    ext <;> simp [coll_den, coll_omega, coll_m, coll_g, one, img]
  have ha : coll_a c.mass_ c.dt_ (V_ij c i j) = 1 := by
    rw [coll_a, hd, hv, hm]
    ext <;> simp [coll_omega, coll_m, coll_g, one]
  have hb : coll_b c.mass_ c.dt_ (V_ij c i j) = 0 := by
    rw [coll_b, hd, hm]
    ext <;> simp [coll_m]
  have hX : Qhat_X c i j Q0 = 1 := by
    rw [Qhat_X]
    ext r s <;> fin_cases r <;> fin_cases s <;> simp [ha, hb]
  refine ⟨hv, hd, ha, hb, hX, ?_⟩
  rw [Qhat_Y, Qhat_Y_at_eq_Qhat_X_at]
  exact hX

/-- With `mass = 0` and the free potential the X collide-and-stream loop moves the source
value of channel `k` to the target cell unchanged. -/
theorem collide_stream_X_massless_free_target (c : Config K) (hm : c.mass_ = 0)
    (hV : c.V_indx_ ≠ 0) (r : c4mat_t K) (s : c4mat_t K × cmat_t K)
    (i j : Nat) (hi : i < c.L_) (hj : j < c.L_) (k : Fin 4) :
    (collide_stream_X c r s).1
        (if k.val < 2 then ((i : Int) + 1) % (c.L_ : Int)
          else ((i : Int) - 1 + (c.L_ : Int)) % (c.L_ : Int)) (j : Int) k
      = r i j k := by
  have hQ : Q_closed_form c.mass_ c.dt_ (V_ij c i j) = 1 := by
    rw [← Qhat_X_at_eq_closed_form c.mass_ c.dt_ (V_ij c i j) 0]
    exact (massless_free_facts c i j 0 hm hV).2.2.2.2.1
  rw [collide_stream_X_target c r s i j hi hj k, hQ]
  simp [Matrix.one_apply]

end MasslessFree

section ShiftLemmas

theorem idx_a_eq (L i : Nat) (h : i < L) :
    idx_a (L : Int) (i : Int) = if i + 1 = L then 0 else (i : Int) + 1 := by
  rw [idx_a, tmod_succ L i h, emod_succ L i h]

theorem idx_k_eq (L i : Nat) (h : i < L) :
    idx_k (L : Int) (i : Int) = if i = 0 then (L : Int) - 1 else (i : Int) - 1 := by
  rw [idx_k, tmod_pred L i h, emod_pred L i h]

/-- The forward target of a grid index is a grid index. -/
theorem idx_a_nat (L i : Nat) (h : i < L) :
    ∃ t : Nat, t < L ∧ idx_a (L : Int) (i : Int) = (t : Int) := by
  rw [idx_a_eq L i h]
  split_ifs with e
  · exact ⟨0, by omega, rfl⟩
  · exact ⟨i + 1, by omega, by push_cast; rfl⟩

/-- The backward target of a grid index is a grid index. -/
theorem idx_k_nat (L i : Nat) (h : i < L) :
    ∃ t : Nat, t < L ∧ idx_k (L : Int) (i : Int) = (t : Int) := by
  rw [idx_k_eq L i h]
  split_ifs with e
  · exact ⟨L - 1, by omega, by omega⟩
  · exact ⟨i - 1, by omega, by omega⟩

theorem idx_k_idx_a (L i : Nat) (h : i < L) :
    idx_k (L : Int) (idx_a (L : Int) (i : Int)) = (i : Int) := by
  obtain ⟨t, ht, e⟩ := idx_a_nat L i h
  rw [e, idx_k_eq L t ht]
  rw [idx_a_eq L i h] at e
  split_ifs at e ⊢ <;> omega

theorem idx_a_idx_k (L i : Nat) (h : i < L) :
    idx_a (L : Int) (idx_k (L : Int) (i : Int)) = (i : Int) := by
  obtain ⟨t, ht, e⟩ := idx_k_nat L i h
  rw [e, idx_a_eq L t ht]
  rw [idx_k_eq L i h] at e
  split_ifs at e ⊢ <;> omega

end ShiftLemmas

section ConjLemmas

variable {K : Type} [LinearOrderedField K]

/-- The sixteen entries of `N`. -/
theorem N_mat_apply (r c : Fin 4) :
    (N_mat : cmat_t K) r c =
      if r = 0 ∧ c = 3 then Cx.ofReal 1 else
      if r = 1 ∧ c = 2 then Cx.ofReal 2 else
      if r = 1 ∧ c = 3 then Cx.ofReal 1 else
      if r = 2 ∧ c = 0 then Cx.ofReal (-0.5) else
      if r = 2 ∧ c = 1 then Cx.ofReal 0.5 else
      if r = 3 ∧ c = 0 then Cx.ofReal 1 else 0 := by
  fin_cases r <;> fin_cases c <;> rfl

theorem N_mat_mul_self : (N_mat : cmat_t K) * N_mat = 1 := by
  ext r c <;> fin_cases r <;> fin_cases c <;>
    simp [Matrix.mul_apply, Fin.sum_univ_four, N_mat_apply] <;> norm_num

/-- The matrix written by `Qhat_X` is `a·I + i·b·N`. -/
theorem Qhat_X_at_eq_smul (mass dt V : K) (Q0 : cmat_t K) :
    Qhat_X_at mass dt V Q0
      = coll_a mass dt V • (1 : cmat_t K) + (img * coll_b mass dt V) • N_mat := by
  ext r c <;> fin_cases r <;> fin_cases c <;>
    simp [Matrix.smul_apply, Matrix.one_apply, N_mat_apply, img] <;> norm_num <;> ring

/-- The product `a·conj b` of the coefficients is real. -/
theorem coll_a_conj_b_im (mass dt V : K) :
    (coll_a mass dt V * Cx.conj (coll_b mass dt V)).im = 0 := by
  have hne := (coll_den_norm_pos mass dt V).ne.symm
  simp only [coll_a, coll_b, one_sub_ofReal, Cx.mul_im, Cx.conj_re, Cx.conj_im, Cx.div_re,
    Cx.div_im, Cx.ofReal_re, Cx.ofReal_im]
  field_simp
  ring

theorem cconj_smul_add (a β : Cx K) :
    cconj (a • (1 : cmat_t K) + β • N_mat) = Cx.conj a • (1 : cmat_t K) + Cx.conj β • N_mat := by
  ext r c <;> fin_cases r <;> fin_cases c <;>
    simp [cconj, Matrix.smul_apply, Matrix.one_apply, N_mat_apply]

theorem smul_add_mul_smul_add (a β a1 β1 : Cx K) :
    (a • (1 : cmat_t K) + β • N_mat) * (a1 • (1 : cmat_t K) + β1 • N_mat)
      = (a * a1 + β * β1) • (1 : cmat_t K) + (a * β1 + β * a1) • N_mat := by
  simp only [add_mul, mul_add, Matrix.smul_mul, Matrix.mul_smul, Matrix.one_mul,
    Matrix.mul_one, smul_smul, N_mat_mul_self, add_smul]
  rw [mul_comm a1 a, mul_comm β1 β, mul_comm β1 a, mul_comm a1 β]
  abel

/-- The entrywise conjugate of the collision matrix is its inverse. -/
theorem Qhat_X_at_mul_cconj (mass dt V : K) (Q0 : cmat_t K) :
    Qhat_X_at mass dt V Q0 * cconj (Qhat_X_at mass dt V Q0) = 1 ∧
    cconj (Qhat_X_at mass dt V Q0) * Qhat_X_at mass dt V Q0 = 1 := by
  have h1 := coll_norm_a_add_norm_b mass dt V
  have h2 := coll_a_conj_b_im mass dt V
  simp only [Cx.norm] at h1
  simp only [Cx.mul_im, Cx.conj_re, Cx.conj_im] at h2
  rw [Qhat_X_at_eq_smul, cconj_smul_add, smul_add_mul_smul_add, smul_add_mul_smul_add]
  generalize coll_a mass dt V = a at h1 h2 ⊢
  generalize coll_b mass dt V = b at h1 h2 ⊢
  have e1 : a * Cx.conj a + img * b * Cx.conj (img * b) = 1 := by
    ext <;> simp [img] <;> first | ring1 | linear_combination h1
  have e2 : a * Cx.conj (img * b) + img * b * Cx.conj a = 0 := by
    ext <;> simp [img] <;> first | ring1 | linear_combination 2 * h2
  have e3 : Cx.conj a * a + Cx.conj (img * b) * (img * b) = 1 := by
    rw [mul_comm (Cx.conj a), mul_comm (Cx.conj (img * b))]; exact e1
  have e4 : Cx.conj a * (img * b) + Cx.conj (img * b) * a = 0 := by
    rw [mul_comm (Cx.conj a), mul_comm (Cx.conj (img * b)), add_comm]; exact e2
  rw [e1, e2, e3, e4]
  simp

end ConjLemmas

section MacroscopicLemmas

variable {K : Type}

theorem cmatL_set_apply (m : cmatL_t K) (i j : Int) (v : Cx K) (i1 j1 : Int) :
    m.set i j v i1 j1 = if i1 = i ∧ j1 = j then v else m i1 j1 := rfl

theorem forLoop_succ {σ : Type} (n : Nat) (body : Int → σ → σ) (s : σ) :
    forLoop (n + 1) body s = body (n : Int) (forLoop n body s) := by
  unfold forLoop
  rw [List.range_succ, List.foldl_append]
  rfl

/-- A loop whose every iteration adds `f i` to a quantity adds the sum of the `f i`. -/
theorem forLoop_get_sum [AddCommMonoid K] {σ : Type} (n : Nat) (body : Int → σ → σ)
    (get : σ → K) (f : Nat → K)
    (h : ∀ i : Nat, i < n → ∀ s, get (body (i : Int) s) = get s + f i) (s : σ) :
    get (forLoop n body s) = get s + ∑ i ∈ Finset.range n, f i := by
  induction n with
  | zero => simp [forLoop]
  | succ n ih =>
    rw [forLoop_succ, h n (Nat.lt_succ_self n), ih (fun i hi => h i (Nat.lt_succ_of_lt hi)),
      Finset.sum_range_succ, add_assoc]

/-- Nested loops: one iteration sets the quantity, the others leave it alone. -/
theorem forLoop2_get_hit {σ β : Type} (n : Nat) (body : Int → Int → σ → σ) (get : σ → β)
    (v : β) (i0 j0 : Nat) (hi0 : i0 < n) (hj0 : j0 < n)
    (h1 : ∀ s, get (body (i0 : Int) (j0 : Int) s) = v)
    (h2 : ∀ i j : Nat, i < n → j < n → (i ≠ i0 ∨ j ≠ j0) →
      ∀ s, get (body (i : Int) (j : Int) s) = get s) (s : σ) :
    get (forLoop n (fun i s => forLoop n (fun j s => body i j s) s) s) = v := by
  refine forLoop_get_hit n _ get v i0 hi0 (fun t => ?_) (fun i hi hne t => ?_) s
  · exact forLoop_get_hit n _ get v j0 hj0 h1
      (fun j hj hne u => h2 i0 j hi0 hj (Or.inr hne) u) t
  · exact forLoop_get_frame n _ get (fun j hj u => h2 i j hi hj (Or.inl hne) u) t

/-- Nested loops: no iteration changes the quantity. -/
theorem forLoop2_get_frame {σ β : Type} (n : Nat) (body : Int → Int → σ → σ) (get : σ → β)
    (h : ∀ i j : Nat, i < n → j < n → ∀ s, get (body (i : Int) (j : Int) s) = get s)
    (s : σ) :
    get (forLoop n (fun i s => forLoop n (fun j s => body i j s) s) s) = get s :=
  forLoop_get_frame n _ get
    (fun i hi t => forLoop_get_frame n _ get (fun j hj u => h i j hi hj u) t) s

/-- Nested loops: every iteration adds `f i j` to the quantity. -/
theorem forLoop2_get_sum [AddCommMonoid K] {σ : Type} (n : Nat) (body : Int → Int → σ → σ)
    (get : σ → K) (f : Nat → Nat → K)
    (h : ∀ i j : Nat, i < n → j < n →
      ∀ s, get (body (i : Int) (j : Int) s) = get s + f i j) (s : σ) :
    get (forLoop n (fun i s => forLoop n (fun j s => body i j s) s) s)
      = get s + ∑ i ∈ Finset.range n, ∑ j ∈ Finset.range n, f i j :=
  forLoop_get_sum n _ get (fun i => ∑ j ∈ Finset.range n, f i j)
    (fun i hi t => forLoop_get_sum n _ get (f i) (fun j hj u => h i j hi hj u) t) s

variable [LinearOrderedField K]

theorem macroscopic_site_rho (k : Constants K) (c : Config K) (sp : c4mat_t K) (i j : Int)
    (a : Acc K) (ti tj : Int) :
    (macroscopic_site k c sp i j a).rho_ ti tj =
      if ti = i ∧ tj = j then
        Cx.ofReal (Cx.norm (sp i j 0) + Cx.norm (sp i j 1) + Cx.norm (sp i j 2)
          + Cx.norm (sp i j 3))
      else a.rho_ ti tj := rfl

theorem macroscopic_site_currentX (k : Constants K) (c : Config K) (sp : c4mat_t K)
    (i j : Int) (a : Acc K) (ti tj : Int) :
    (macroscopic_site k c sp i j a).currentX_ ti tj =
      if ti = i ∧ tj = j then
        ∑ r : Fin 4, ∑ s : Fin 4, Cx.conj (sp i j r) * k.alphaX r s * sp i j s
      else a.currentX_ ti tj := by
  simp only [macroscopic_site, forLoop4_eq, Fin.sum_univ_four]
  by_cases h : ti = i ∧ tj = j
  · simp [cmatL_set_apply, h]
    ring
  · simp [cmatL_set_apply, h]

theorem macroscopic_site_currentY (k : Constants K) (c : Config K) (sp : c4mat_t K)
    (i j : Int) (a : Acc K) (ti tj : Int) :
    (macroscopic_site k c sp i j a).currentY_ ti tj =
      if ti = i ∧ tj = j then
        ∑ r : Fin 4, ∑ s : Fin 4, Cx.conj (sp i j r) * k.alphaY r s * sp i j s
      else a.currentY_ ti tj := by
  simp only [macroscopic_site, forLoop4_eq, Fin.sum_univ_four]
  by_cases h : ti = i ∧ tj = j
  · simp [cmatL_set_apply, h]
    ring
  · simp [cmatL_set_apply, h]

/-- The density that `calculate_macroscopic_vars` stores at a grid site. -/
theorem calc_rho_in (sqrt : K → K) (k : Constants K) (c : Config K) (st : State K)
    (i j : Nat) (hi : i < c.L_) (hj : j < c.L_) :
    (calculate_macroscopic_vars sqrt k c st).rho_ i j =
      Cx.ofReal (Cx.norm (st.spinor_ i j 0) + Cx.norm (st.spinor_ i j 1)
        + Cx.norm (st.spinor_ i j 2) + Cx.norm (st.spinor_ i j 3)) := by
  simp only [calculate_macroscopic_vars]
  refine forLoop2_get_hit c.L_ _ (fun a : Acc K => a.rho_ i j) _ i j hi hj
    (fun s => ?_) (fun i1 j1 _ _ hne s => ?_) _
  · simp [macroscopic_site_rho]
  · simp only [macroscopic_site_rho]
    rw [if_neg]
    rintro ⟨e1, e2⟩
    rcases hne with h | h
    · exact h (by exact_mod_cast e1.symm)
    · exact h (by exact_mod_cast e2.symm)

/-- The current that `calculate_macroscopic_vars` stores at a grid site. -/
theorem calc_currentX_in (sqrt : K → K) (k : Constants K) (c : Config K) (st : State K)
    (i j : Nat) (hi : i < c.L_) (hj : j < c.L_) :
    (calculate_macroscopic_vars sqrt k c st).currentX_ i j =
      ∑ r : Fin 4, ∑ s : Fin 4,
        Cx.conj (st.spinor_ i j r) * k.alphaX r s * st.spinor_ i j s := by
  simp only [calculate_macroscopic_vars]
  refine forLoop2_get_hit c.L_ _ (fun a : Acc K => a.currentX_ i j) _ i j hi hj
    (fun s => ?_) (fun i1 j1 _ _ hne s => ?_) _
  · simp [macroscopic_site_currentX]
  · simp only [macroscopic_site_currentX]
    rw [if_neg]
    rintro ⟨e1, e2⟩
    rcases hne with h | h
    · exact h (by exact_mod_cast e1.symm)
    · exact h (by exact_mod_cast e2.symm)

theorem calc_currentY_in (sqrt : K → K) (k : Constants K) (c : Config K) (st : State K)
    (i j : Nat) (hi : i < c.L_) (hj : j < c.L_) :
    (calculate_macroscopic_vars sqrt k c st).currentY_ i j =
      ∑ r : Fin 4, ∑ s : Fin 4,
        Cx.conj (st.spinor_ i j r) * k.alphaY r s * st.spinor_ i j s := by
  simp only [calculate_macroscopic_vars]
  refine forLoop2_get_hit c.L_ _ (fun a : Acc K => a.currentY_ i j) _ i j hi hj
    (fun s => ?_) (fun i1 j1 _ _ hne s => ?_) _
  · simp [macroscopic_site_currentY]
  · simp only [macroscopic_site_currentY]
    rw [if_neg]
    rintro ⟨e1, e2⟩
    rcases hne with h | h
    · exact h (by exact_mod_cast e1.symm)
    · exact h (by exact_mod_cast e2.symm)

/-- The spread `deltax_` that `calculate_macroscopic_vars` stores. -/
theorem calc_deltax (sqrt : K → K) (k : Constants K) (c : Config K) (st : State K) :
    (calculate_macroscopic_vars sqrt k c st).deltax_ =
      sqrt ((∑ i ∈ Finset.range c.L_, ∑ j ∈ Finset.range c.L_,
          (c.dx_ * ((i : K) - 0.5 * ((L_minus_1 c.L_ : Nat) : K)))
            * (c.dx_ * ((i : K) - 0.5 * ((L_minus_1 c.L_ : Nat) : K)))
            * Cx.norm (st.spinor_ i j 0) * (c.dx_ * c.dx_))
        / (∑ i ∈ Finset.range c.L_, ∑ j ∈ Finset.range c.L_,
          Cx.norm (st.spinor_ i j 0) * (c.dx_ * c.dx_))) := by
  simp only [calculate_macroscopic_vars]
  congr 2
  · rw [forLoop2_get_sum c.L_ _ (fun a : Acc K => a.deltax_nom)
      (fun i j => (c.dx_ * ((i : K) - 0.5 * ((L_minus_1 c.L_ : Nat) : K)))
            * (c.dx_ * ((i : K) - 0.5 * ((L_minus_1 c.L_ : Nat) : K)))
            * Cx.norm (st.spinor_ i j 0) * (c.dx_ * c.dx_))
      (fun i j _ _ s => by simp [macroscopic_site])]
    simp
  · rw [forLoop2_get_sum c.L_ _ (fun a : Acc K => a.deltax_den)
      (fun i j => Cx.norm (st.spinor_ i j 0) * (c.dx_ * c.dx_))
      (fun i j _ _ s => by simp [macroscopic_site])]
    simp

/-- The spread `deltay_` that `calculate_macroscopic_vars` stores. -/
theorem calc_deltay (sqrt : K → K) (k : Constants K) (c : Config K) (st : State K) :
    (calculate_macroscopic_vars sqrt k c st).deltay_ =
      sqrt ((∑ i ∈ Finset.range c.L_, ∑ j ∈ Finset.range c.L_,
          (c.dx_ * ((j : K) - 0.5 * ((L_minus_1 c.L_ : Nat) : K)))
            * (c.dx_ * ((j : K) - 0.5 * ((L_minus_1 c.L_ : Nat) : K)))
            * Cx.norm (st.spinor_ i j 0) * (c.dx_ * c.dx_))
        / (∑ i ∈ Finset.range c.L_, ∑ j ∈ Finset.range c.L_,
          Cx.norm (st.spinor_ i j 0) * (c.dx_ * c.dx_))) := by
  simp only [calculate_macroscopic_vars]
  congr 2
  · rw [forLoop2_get_sum c.L_ _ (fun a : Acc K => a.deltay_nom)
      (fun i j => (c.dx_ * ((j : K) - 0.5 * ((L_minus_1 c.L_ : Nat) : K)))
            * (c.dx_ * ((j : K) - 0.5 * ((L_minus_1 c.L_ : Nat) : K)))
            * Cx.norm (st.spinor_ i j 0) * (c.dx_ * c.dx_))
      (fun i j _ _ s => by simp [macroscopic_site])]
    simp
  · rw [forLoop2_get_sum c.L_ _ (fun a : Acc K => a.deltay_den)
      (fun i j => Cx.norm (st.spinor_ i j 0) * (c.dx_ * c.dx_))
      (fun i j _ _ s => by simp [macroscopic_site])]
    simp

end MacroscopicLemmas

section HermitianLemmas

variable {K : Type} [LinearOrderedField K]

theorem cx_conj_add (z w : Cx K) : Cx.conj (z + w) = Cx.conj z + Cx.conj w := by
  ext <;> simp
  ring

theorem cx_conj_mul (z w : Cx K) : Cx.conj (z * w) = Cx.conj z * Cx.conj w := by
  ext <;> simp
  ring

theorem cx_conj_conj (z : Cx K) : Cx.conj (Cx.conj z) = z := by
  ext <;> simp

theorem cx_conj_sum {ι : Type} (s : Finset ι) (f : ι → Cx K) :
    Cx.conj (∑ i ∈ s, f i) = ∑ i ∈ s, Cx.conj (f i) := by
  classical
  induction s using Finset.induction_on with
  | empty => ext <;> simp
  | insert h ih => rw [Finset.sum_insert h, Finset.sum_insert h, cx_conj_add, ih]

/-- A Hermitian form is real. -/
theorem hermitian_form_im (A : cmat_t K) (hA : ∀ r c, A r c = Cx.conj (A c r))
    (v : Fin 4 → Cx K) :
    (∑ r : Fin 4, ∑ s : Fin 4, Cx.conj (v r) * A r s * v s).im = 0 := by
  have h : Cx.conj (∑ r : Fin 4, ∑ s : Fin 4, Cx.conj (v r) * A r s * v s)
      = ∑ r : Fin 4, ∑ s : Fin 4, Cx.conj (v r) * A r s * v s := by
    simp only [cx_conj_sum, cx_conj_mul, cx_conj_conj]
    rw [Finset.sum_comm]
    refine Finset.sum_congr rfl (fun r _ => Finset.sum_congr rfl (fun s _ => ?_))
    rw [← hA r s]
    ring
  have h2 := congrArg Cx.im h
  simp only [Cx.conj_im] at h2
  linarith

end HermitianLemmas

section SpreadLemmas

variable {K : Type} [LinearOrderedField K]

theorem cx_norm_nonneg (z : Cx K) : 0 ≤ Cx.norm z := by
  simp only [Cx.norm]
  nlinarith [mul_self_nonneg z.re, mul_self_nonneg z.im]

theorem cx_norm_pos (z : Cx K) (h : z ≠ 0) : 0 < Cx.norm z := by
  rcases (cx_norm_nonneg z).lt_or_eq with h1 | h1
  · exact h1
  · exfalso
    apply h
    simp only [Cx.norm] at h1
    have hr : z.re * z.re = 0 := by
      nlinarith [mul_self_nonneg z.re, mul_self_nonneg z.im]
    have hi : z.im * z.im = 0 := by
      nlinarith [mul_self_nonneg z.re, mul_self_nonneg z.im]
    ext
    · exact mul_self_eq_zero.1 hr
    · exact mul_self_eq_zero.1 hi

/-- Inside the loops `L_ ≥ 1`, so the `unsigned` value `L_-1` is `L − 1`. -/
theorem cast_L_minus_1 (L : Nat) (h1 : 1 ≤ L) (h32 : L < 2 ^ 32) :
    ((L_minus_1 L : Nat) : K) = (L : K) - 1 := by
  rw [L_minus_1_eq L h1 h32, Nat.cast_sub h1, Nat.cast_one]

/-- The squared coordinate of a grid index is at most the squared half-width. -/
theorem coord_sq_le (dx : K) (L i : Nat) (hi : i < L) :
    (dx * ((i : K) - 0.5 * ((L : K) - 1))) * (dx * ((i : K) - 0.5 * ((L : K) - 1)))
      ≤ (dx * ((L : K) - 1) / 2) * (dx * ((L : K) - 1) / 2) := by
  have h0 : (0 : K) ≤ (i : K) := Nat.cast_nonneg i
  have h1 : (i : K) ≤ (L : K) - 1 := by
    have : (i : K) + 1 ≤ (L : K) := by exact_mod_cast hi
    linarith
  have e : (dx * ((L : K) - 1) / 2) * (dx * ((L : K) - 1) / 2)
      - (dx * ((i : K) - 0.5 * ((L : K) - 1))) * (dx * ((i : K) - 0.5 * ((L : K) - 1)))
      = dx * dx * ((i : K) * ((L : K) - 1 - i)) := by
    norm_num
    ring
  have h2 : 0 ≤ dx * dx * ((i : K) * ((L : K) - 1 - i)) :=
    mul_nonneg (mul_self_nonneg dx) (mul_nonneg h0 (by linarith))
  linarith

/-- A weighted mean of squares bounded by `B²` has a square root in `[0, B]`. -/
theorem sqrt_ratio_bounds (sqrt : K → K)
    (hsqrt : ∀ x : K, 0 ≤ x → 0 ≤ sqrt x ∧ sqrt x * sqrt x = x)
    (nom den B : K) (hB : 0 ≤ B) (hden : 0 < den) (hnom : 0 ≤ nom) (hle : nom ≤ B * B * den) :
    0 ≤ sqrt (nom / den) ∧ sqrt (nom / den) ≤ B := by
  have hr : 0 ≤ nom / den := div_nonneg hnom hden.le
  obtain ⟨h1, h2⟩ := hsqrt _ hr
  refine ⟨h1, ?_⟩
  have h3 : nom / den ≤ B * B := by
    rw [div_le_iff₀ hden]
    exact hle
  rw [← h2] at h3
  exact (mul_self_le_mul_self_iff h1 hB).2 h3

/-- The spec form of the numerator and denominator sums of `deltax_`. -/
theorem calc_deltax_spec (sqrt : K → K) (k : Constants K) (c : Config K) (st : State K)
    (hL32 : c.L_ < 2 ^ 32) :
    (calculate_macroscopic_vars sqrt k c st).deltax_ =
      sqrt ((∑ i ∈ Finset.range c.L_, ∑ j ∈ Finset.range c.L_,
          (c.dx_ * ((i : K) - 0.5 * ((c.L_ : K) - 1))) ^ 2
            * Cx.norm (st.spinor_ i j 0) * c.dx_ ^ 2)
        / (∑ i ∈ Finset.range c.L_, ∑ j ∈ Finset.range c.L_,
          Cx.norm (st.spinor_ i j 0) * c.dx_ ^ 2)) := by
  rw [calc_deltax]
  congr 2
  · refine Finset.sum_congr rfl (fun i hi => Finset.sum_congr rfl (fun j _ => ?_))
    have h1 : 1 ≤ c.L_ := by
      have := Finset.mem_range.1 hi
      omega
    rw [cast_L_minus_1 c.L_ h1 hL32]
    ring
  · refine Finset.sum_congr rfl (fun i _ => Finset.sum_congr rfl (fun j _ => ?_))
    ring

/-- The spec form of the numerator and denominator sums of `deltay_`. -/
theorem calc_deltay_spec (sqrt : K → K) (k : Constants K) (c : Config K) (st : State K)
    (hL32 : c.L_ < 2 ^ 32) :
    (calculate_macroscopic_vars sqrt k c st).deltay_ =
      sqrt ((∑ i ∈ Finset.range c.L_, ∑ j ∈ Finset.range c.L_,
          (c.dx_ * ((j : K) - 0.5 * ((c.L_ : K) - 1))) ^ 2
            * Cx.norm (st.spinor_ i j 0) * c.dx_ ^ 2)
        / (∑ i ∈ Finset.range c.L_, ∑ j ∈ Finset.range c.L_,
          Cx.norm (st.spinor_ i j 0) * c.dx_ ^ 2)) := by
  rw [calc_deltay]
  congr 2
  · refine Finset.sum_congr rfl (fun i hi => Finset.sum_congr rfl (fun j _ => ?_))
    have h1 : 1 ≤ c.L_ := by
      have := Finset.mem_range.1 hi
      omega
    rw [cast_L_minus_1 c.L_ h1 hL32]
    ring
  · refine Finset.sum_congr rfl (fun i _ => Finset.sum_congr rfl (fun j _ => ?_))
    ring

/-- The bounds on a spread computed from non-negative weights `w` and coordinates whose
squares are at most `B²`. -/
theorem spread_bounds (sqrt : K → K)
    (hsqrt : ∀ x : K, 0 ≤ x → 0 ≤ sqrt x ∧ sqrt x * sqrt x = x)
    (L : Nat) (w q : Nat → Nat → K) (B : K) (hB : 0 ≤ B)
    (hw : ∀ i j, 0 ≤ w i j) (hq0 : ∀ i j, 0 ≤ q i j)
    (hq : ∀ i j, i < L → j < L → q i j ≤ B * B)
    (hpos : ∃ i j, i < L ∧ j < L ∧ 0 < w i j) :
    0 ≤ sqrt ((∑ i ∈ Finset.range L, ∑ j ∈ Finset.range L, q i j * w i j)
        / (∑ i ∈ Finset.range L, ∑ j ∈ Finset.range L, w i j)) ∧
    sqrt ((∑ i ∈ Finset.range L, ∑ j ∈ Finset.range L, q i j * w i j)
        / (∑ i ∈ Finset.range L, ∑ j ∈ Finset.range L, w i j)) ≤ B := by
  apply sqrt_ratio_bounds sqrt hsqrt _ _ B hB
  · obtain ⟨i, j, hi, hj, h⟩ := hpos
    have h1 : 0 < ∑ j ∈ Finset.range L, w i j :=
      Finset.sum_pos' (fun j _ => hw i j) ⟨j, Finset.mem_range.2 hj, h⟩
    exact Finset.sum_pos' (fun i _ => Finset.sum_nonneg (fun j _ => hw i j))
      ⟨i, Finset.mem_range.2 hi, h1⟩
  · exact Finset.sum_nonneg (fun i _ => Finset.sum_nonneg
      (fun j _ => mul_nonneg (hq0 i j) (hw i j)))
  · rw [Finset.mul_sum]
    refine Finset.sum_le_sum (fun i hi => ?_)
    rw [Finset.mul_sum]
    refine Finset.sum_le_sum (fun j hj => ?_)
    exact mul_le_mul_of_nonneg_right
      (hq i j (Finset.mem_range.1 hi) (Finset.mem_range.1 hj)) (hw i j)

end SpreadLemmas

section SweepLemmas

variable {K : Type}

/-- After a copy loop every site of the grid of `spinoraux_` holds `spinorrot_`. -/
theorem copy_to_aux_apply_in (L : Nat) (rot aux : c4mat_t K) (i j : Nat) (hi : i < L)
    (hj : j < L) (k : Fin 4) : copy_to_aux L rot aux (i : Int) (j : Int) k = rot i j k := by
  unfold copy_to_aux
  refine forLoop2_get_hit L _ (fun t : c4mat_t K => t (i : Int) (j : Int) k) _ i j hi hj
    (fun s => ?_) (fun i1 j1 _ _ hne s => ?_) aux
  · fin_cases k <;> simp [c4mat_set_apply]
  · have h : ¬ ((i : Int) = (i1 : Int) ∧ (j : Int) = (j1 : Int)) := by
      rintro ⟨e1, e2⟩
      rcases hne with h | h
      · exact h (by exact_mod_cast e1.symm)
      · exact h (by exact_mod_cast e2.symm)
    simp only [c4mat_set_apply]
    have h' : ∀ q : Fin 4, ¬ ((i : Int) = (i1 : Int) ∧ (j : Int) = (j1 : Int) ∧ k = q) :=
      fun q hq => h ⟨hq.1, hq.2.1⟩
    simp only [h', if_false]

variable [LinearOrderedField K]

/-- The source index of a grid index is a grid index. -/
theorem stream_src_nat (L : Nat) (k : Fin 4) (t : Nat) (ht : t < L) :
    ∃ i : Nat, i < L ∧ stream_src (L : Int) k (t : Int) = (i : Int) := by
  unfold stream_src
  split_ifs
  · exact idx_k_nat L t ht
  · exact idx_a_nat L t ht

/-- Streaming from the source index of `t` arrives at `t`. -/
theorem stream_src_target (L : Nat) (k : Fin 4) (t i : Nat) (ht : t < L) (hi : i < L)
    (e : stream_src (L : Int) k (t : Int) = (i : Int)) :
    (if k.val < 2 then ((i : Int) + 1) % (L : Int)
      else ((i : Int) - 1 + (L : Int)) % (L : Int)) = (t : Int) := by
  unfold stream_src at e
  split_ifs at e ⊢ with hk
  · rw [← tmod_succ L i hi, ← e]
    exact idx_a_idx_k L t ht
  · rw [← tmod_pred L i hi, ← e]
    exact idx_k_idx_a L t ht

/-- After the X collide-and-stream loop, read at the target cell. -/
theorem collide_stream_X_at (c : Config K) (aux : c4mat_t K) (s : c4mat_t K × cmat_t K)
    (t j : Nat) (ht : t < c.L_) (hj : j < c.L_) (k : Fin 4) :
    (collide_stream_X c aux s).1 (t : Int) (j : Int) k
      = ∑ n : Fin 4, Q_closed_form c.mass_ c.dt_ (V_ij c (stream_src c.L_ k t) j) k n
          * aux (stream_src c.L_ k t) j n := by
  obtain ⟨i, hi, e⟩ := stream_src_nat c.L_ k t ht
  have h := collide_stream_X_target c aux s i j hi hj k
  rw [stream_src_target c.L_ k t i ht hi e] at h
  rw [h, e]

/-- After the Y collide-and-stream loop, read at the target cell. -/
theorem collide_stream_Y_at (c : Config K) (aux : c4mat_t K) (s : c4mat_t K × cmat_t K)
    (i t : Nat) (hi : i < c.L_) (ht : t < c.L_) (k : Fin 4) :
    (collide_stream_Y c aux s).1 (i : Int) (t : Int) k
      = ∑ n : Fin 4, Q_closed_form c.mass_ c.dt_ (V_ij c i (stream_src c.L_ k t)) k n
          * aux i (stream_src c.L_ k t) n := by
  obtain ⟨j, hj, e⟩ := stream_src_nat c.L_ k t ht
  have h := collide_stream_Y_target c aux s i j hi hj k
  rw [stream_src_target c.L_ k t j ht hj e] at h
  rw [h, e]

/-- One X sweep of `evolution_CPU`, read at a grid site. -/
theorem sweep_X_apply (X Xinv : cmat_t K) (c : Config K) (s rot0 aux0 dst : c4mat_t K)
    (Q0 : cmat_t K) (t j : Nat) (ht : t < c.L_) (hj : j < c.L_) (m : Fin 4) :
    rotate Xinv c.L_ (collide_stream_X c (copy_to_aux c.L_ (rotate X c.L_ s rot0) aux0)
        (rotate X c.L_ s rot0, Q0)).1 dst (t : Int) (j : Int) m
      = sweep_X_formula X Xinv c s t j m := by
  rw [rotate_apply_in Xinv c.L_ _ dst t j ht hj m]
  unfold sweep_X_formula
  refine Finset.sum_congr rfl (fun k _ => ?_)
  rw [collide_stream_X_at c _ _ t j ht hj k]
  obtain ⟨i, hi, e⟩ := stream_src_nat c.L_ k t ht
  rw [e]
  congr 1
  refine Finset.sum_congr rfl (fun n _ => ?_)
  rw [copy_to_aux_apply_in c.L_ _ aux0 i j hi hj n, rotate_apply_in X c.L_ s rot0 i j hi hj n]

/-- One Y sweep of `evolution_CPU`, read at a grid site. -/
theorem sweep_Y_apply (Y Yinv : cmat_t K) (c : Config K) (s rot0 aux0 dst : c4mat_t K)
    (Q0 : cmat_t K) (i t : Nat) (hi : i < c.L_) (ht : t < c.L_) (m : Fin 4) :
    rotate Yinv c.L_ (collide_stream_Y c (copy_to_aux c.L_ (rotate Y c.L_ s rot0) aux0)
        (rotate Y c.L_ s rot0, Q0)).1 dst (i : Int) (t : Int) m
      = sweep_Y_formula Y Yinv c s i t m := by
  rw [rotate_apply_in Yinv c.L_ _ dst i t hi ht m]
  unfold sweep_Y_formula
  refine Finset.sum_congr rfl (fun k _ => ?_)
  rw [collide_stream_Y_at c _ _ i t hi ht k]
  obtain ⟨j, hj, e⟩ := stream_src_nat c.L_ k t ht
  rw [e]
  congr 1
  refine Finset.sum_congr rfl (fun n _ => ?_)
  rw [copy_to_aux_apply_in c.L_ _ aux0 i j hi hj n, rotate_apply_in Y c.L_ s rot0 i j hi hj n]

/-- The Y sweep at a grid site reads its input on the grid only. -/
theorem sweep_Y_formula_congr (Y Yinv : cmat_t K) (c : Config K) (f g : c4mat_t K)
    (h : ∀ i j : Nat, i < c.L_ → j < c.L_ → ∀ p, f i j p = g i j p)
    (i t : Nat) (hi : i < c.L_) (ht : t < c.L_) (m : Fin 4) :
    sweep_Y_formula Y Yinv c f i t m = sweep_Y_formula Y Yinv c g i t m := by
  unfold sweep_Y_formula
  refine Finset.sum_congr rfl (fun k _ => ?_)
  obtain ⟨j, hj, e⟩ := stream_src_nat c.L_ k t ht
  rw [e]
  simp only [h i j hi hj]

/-- The field that `evolution_CPU` leaves in `spinor_`, read at a grid site. -/
theorem evolution_CPU_spinor (sqrt : K → K) (k : Constants K) (c : Config K) (Q0 : cmat_t K)
    (st : State K) (i j : Nat) (hi : i < c.L_) (hj : j < c.L_) (m : Fin 4) :
    (evolution_CPU sqrt k c Q0 st).spinor_ i j m
      = sweep_Y_formula k.Y k.Yinv c (sweep_X_formula k.X k.Xinv c st.spinor_) i j m := by
  simp only [evolution_CPU, calculate_macroscopic_vars]
  rw [sweep_Y_apply k.Y k.Yinv c _ _ _ _ _ i j hi hj m]
  exact sweep_Y_formula_congr k.Y k.Yinv c _ _
    (fun i1 j1 hi1 hj1 p => sweep_X_apply k.X k.Xinv c _ _ _ _ _ i1 j1 hi1 hj1 p) i j hi hj m

end SweepLemmas

section UnitaryLemmas

open Matrix

variable {K : Type} [LinearOrderedField K]

theorem star_eq_conj (z : Cx K) : star z = Cx.conj z := rfl

theorem dagger_eq_conjTranspose (M : cmat_t K) : dagger M = Mᴴ := by
  ext r c <;> rfl

/-- The squared length of a 4-vector is the real part of its Hermitian square. -/
theorem herm_self_re (v : Fin 4 → Cx K) :
    (star v ⬝ᵥ v).re = ∑ k : Fin 4, Cx.norm (v k) := by
  simp only [Matrix.dotProduct, Fin.sum_univ_four, Pi.star_apply, star_eq_conj, Cx.add_re,
    Cx.mul_re, Cx.conj_re, Cx.conj_im, Cx.norm]
  ring

theorem herm_mulVec (M N : cmat_t K) (u v : Fin 4 → Cx K) :
    star (M *ᵥ u) ⬝ᵥ (N *ᵥ v) = star u ⬝ᵥ ((Mᴴ * N) *ᵥ v) := by
  rw [star_mulVec, ← dotProduct_mulVec, mulVec_mulVec]

/-- A unitary matrix preserves the squared length. -/
theorem norm_mulVec_of_unitary (M : cmat_t K) (hM : dagger M * M = 1) (v : Fin 4 → Cx K) :
    ∑ k : Fin 4, Cx.norm ((M *ᵥ v) k) = ∑ k : Fin 4, Cx.norm (v k) := by
  rw [dagger_eq_conjTranspose] at hM
  rw [← herm_self_re, ← herm_self_re, herm_mulVec, hM, one_mulVec]

/-- Pythagoras for a Hermitian idempotent `A`: the images of `A` and of `1 − A` are
orthogonal. -/
theorem norm_add_of_projector (A : cmat_t K) (hA : dagger A = A) (hAA : A * A = A)
    (u v : Fin 4 → Cx K) :
    ∑ k : Fin 4, Cx.norm (((A *ᵥ u) + ((1 - A) *ᵥ v) : Fin 4 → Cx K) k)
      = ∑ k : Fin 4, Cx.norm ((A *ᵥ u) k) + ∑ k : Fin 4, Cx.norm (((1 - A) *ᵥ v) k) := by
  rw [dagger_eq_conjTranspose] at hA
  have h1 : Aᴴ * (1 - A) = 0 := by rw [hA, mul_sub, mul_one, hAA, sub_self]
  have h2 : (1 - A)ᴴ * A = 0 := by
    rw [conjTranspose_sub, conjTranspose_one, hA, sub_mul, one_mul, hAA, sub_self]
  rw [← herm_self_re, ← herm_self_re, ← herm_self_re, star_add, add_dotProduct,
    dotProduct_add, dotProduct_add, herm_mulVec A (1 - A), herm_mulVec (1 - A) A, h1, h2]
  simp only [zero_mulVec, dotProduct_zero, add_zero, zero_add, Cx.add_re]

/-- Reindexing a sum over the grid by the backward shift. -/
theorem sum_idx_k (L : Nat) (g : Int → K) :
    ∑ t ∈ Finset.range L, g (idx_k (L : Int) (t : Int)) = ∑ t ∈ Finset.range L, g (t : Int) := by
  refine Finset.sum_nbij' (fun t => (idx_k (L : Int) (t : Int)).toNat)
    (fun t => (idx_a (L : Int) (t : Int)).toNat) ?_ ?_ ?_ ?_ ?_
  · intro a ha
    obtain ⟨u, hu, e⟩ := idx_k_nat L a (Finset.mem_range.1 ha)
    simp only [e, Int.toNat_ofNat]
    exact Finset.mem_range.2 hu
  · intro a ha
    obtain ⟨u, hu, e⟩ := idx_a_nat L a (Finset.mem_range.1 ha)
    simp only [e, Int.toNat_ofNat]
    exact Finset.mem_range.2 hu
  · intro a ha
    obtain ⟨u, hu, e⟩ := idx_k_nat L a (Finset.mem_range.1 ha)
    simp only [e, Int.toNat_ofNat]
    rw [← e, idx_a_idx_k L a (Finset.mem_range.1 ha), Int.toNat_ofNat]
  · intro a ha
    obtain ⟨u, hu, e⟩ := idx_a_nat L a (Finset.mem_range.1 ha)
    simp only [e, Int.toNat_ofNat]
    rw [← e, idx_k_idx_a L a (Finset.mem_range.1 ha), Int.toNat_ofNat]
  · intro a ha
    obtain ⟨u, hu, e⟩ := idx_k_nat L a (Finset.mem_range.1 ha)
    simp only [e, Int.toNat_ofNat]

/-- Reindexing a sum over the grid by the forward shift. -/
theorem sum_idx_a (L : Nat) (g : Int → K) :
    ∑ t ∈ Finset.range L, g (idx_a (L : Int) (t : Int)) = ∑ t ∈ Finset.range L, g (t : Int) := by
  refine Finset.sum_nbij' (fun t => (idx_a (L : Int) (t : Int)).toNat)
    (fun t => (idx_k (L : Int) (t : Int)).toNat) ?_ ?_ ?_ ?_ ?_
  · intro a ha
    obtain ⟨u, hu, e⟩ := idx_a_nat L a (Finset.mem_range.1 ha)
    simp only [e, Int.toNat_ofNat]
    exact Finset.mem_range.2 hu
  · intro a ha
    obtain ⟨u, hu, e⟩ := idx_k_nat L a (Finset.mem_range.1 ha)
    simp only [e, Int.toNat_ofNat]
    exact Finset.mem_range.2 hu
  · intro a ha
    obtain ⟨u, hu, e⟩ := idx_a_nat L a (Finset.mem_range.1 ha)
    simp only [e, Int.toNat_ofNat]
    rw [← e, idx_k_idx_a L a (Finset.mem_range.1 ha), Int.toNat_ofNat]
  · intro a ha
    obtain ⟨u, hu, e⟩ := idx_k_nat L a (Finset.mem_range.1 ha)
    simp only [e, Int.toNat_ofNat]
    rw [← e, idx_a_idx_k L a (Finset.mem_range.1 ha), Int.toNat_ofNat]
  · intro a ha
    obtain ⟨u, hu, e⟩ := idx_a_nat L a (Finset.mem_range.1 ha)
    simp only [e, Int.toNat_ofNat]

/-- Streaming along a line of the lattice conserves the summed squared length, when the
channel projector `A` is a Hermitian idempotent. -/
theorem line_conservation (A : cmat_t K) (hA : dagger A = A) (hAA : A * A = A) (L : Nat)
    (q : Int → Fin 4 → Cx K) :
    ∑ t ∈ Finset.range L, ∑ k : Fin 4,
        Cx.norm (((A *ᵥ q (idx_k (L : Int) (t : Int)))
          + ((1 - A) *ᵥ q (idx_a (L : Int) (t : Int))) : Fin 4 → Cx K) k)
      = ∑ t ∈ Finset.range L, ∑ k : Fin 4, Cx.norm (q (t : Int) k) := by
  simp only [norm_add_of_projector A hA hAA]
  rw [Finset.sum_add_distrib,
    sum_idx_k L (fun i => ∑ k : Fin 4, Cx.norm ((A *ᵥ q i) k)),
    sum_idx_a L (fun i => ∑ k : Fin 4, Cx.norm (((1 - A) *ᵥ q i) k)),
    ← Finset.sum_add_distrib]
  refine Finset.sum_congr rfl (fun t _ => ?_)
  rw [← norm_add_of_projector A hA hAA, ← add_mulVec, add_sub_cancel, one_mulVec]

theorem P_fwd_mul_self : (P_fwd : cmat_t K) * P_fwd = P_fwd := by
  ext r c <;> fin_cases r <;> fin_cases c <;>
    simp [Matrix.mul_apply, Fin.sum_univ_four, P_fwd,
      (by decide : ¬ ((3 : Fin 4) : ℕ) < 2)]

/-- The projector `P` picks the forward channels of `u` and the backward channels of `v`. -/
theorem P_fwd_select (u v : Fin 4 → Cx K) (k : Fin 4) :
    (((P_fwd : cmat_t K) *ᵥ u) + ((1 - P_fwd) *ᵥ v) : Fin 4 → Cx K) k
      = if k.val < 2 then u k else v k := by
  fin_cases k <;>
    simp [P_fwd, Matrix.mulVec, Matrix.dotProduct, Fin.sum_univ_four, Matrix.sub_apply,
      Matrix.one_apply, (by decide : ¬ ((3 : Fin 4) : ℕ) < 2)]

end UnitaryLemmas

section ShiftCommute

variable {K : Type} [LinearOrderedField K]

theorem V_ij_free (c : Config K) (hV : c.V_indx_ ≠ 0) (i j : Int) : V_ij c i j = 0 := by
  simp [V_ij, hV, V_free]

/-- The cyclic successor of a grid index is its forward target. -/
theorem emod_succ_eq_idx_a (L t : Nat) (ht : t < L) :
    ((t : Int) + 1) % (L : Int) = idx_a (L : Int) (t : Int) := by
  rw [idx_a, tmod_succ L t ht]

/-- Taking the source index commutes with the cyclic successor. -/
theorem stream_src_succ (L : Nat) (k : Fin 4) (t : Nat) (ht : t < L) :
    (stream_src (L : Int) k (t : Int) + 1) % (L : Int)
      = stream_src (L : Int) k (((t : Int) + 1) % (L : Int)) := by
  rw [emod_succ_eq_idx_a L t ht]
  unfold stream_src
  split_ifs
  · obtain ⟨i, hi, e⟩ := idx_k_nat L t ht
    rw [e, emod_succ_eq_idx_a L i hi, ← e, idx_a_idx_k L t ht, idx_k_idx_a L t ht]
  · obtain ⟨i, hi, e⟩ := idx_a_nat L t ht
    rw [e, emod_succ_eq_idx_a L i hi]

theorem sweep_X_shift_x (X Xinv : cmat_t K) (c : Config K) (hV : c.V_indx_ ≠ 0)
    (f : c4mat_t K) (t j : Nat) (ht : t < c.L_) (m : Fin 4) :
    sweep_X_formula X Xinv c (shift_x c.L_ f) t j m
      = sweep_X_formula X Xinv c f (((t : Int) + 1) % (c.L_ : Int)) j m := by
  simp only [sweep_X_formula, V_ij_free c hV, shift_x, stream_src_succ c.L_ _ t ht]

theorem sweep_X_shift_y (X Xinv : cmat_t K) (c : Config K) (hV : c.V_indx_ ≠ 0)
    (f : c4mat_t K) (t j : Int) (m : Fin 4) :
    sweep_X_formula X Xinv c (shift_y c.L_ f) t j m
      = sweep_X_formula X Xinv c f t ((j + 1) % (c.L_ : Int)) m := by
  simp only [sweep_X_formula, V_ij_free c hV, shift_y]

theorem sweep_Y_shift_y (Y Yinv : cmat_t K) (c : Config K) (hV : c.V_indx_ ≠ 0)
    (f : c4mat_t K) (i t : Nat) (ht : t < c.L_) (m : Fin 4) :
    sweep_Y_formula Y Yinv c (shift_y c.L_ f) i t m
      = sweep_Y_formula Y Yinv c f i (((t : Int) + 1) % (c.L_ : Int)) m := by
  simp only [sweep_Y_formula, V_ij_free c hV, shift_y, stream_src_succ c.L_ _ t ht]

theorem sweep_Y_shift_x (Y Yinv : cmat_t K) (c : Config K) (hV : c.V_indx_ ≠ 0)
    (f : c4mat_t K) (i t : Int) (m : Fin 4) :
    sweep_Y_formula Y Yinv c (shift_x c.L_ f) i t m
      = sweep_Y_formula Y Yinv c f ((i + 1) % (c.L_ : Int)) t m := by
  simp only [sweep_Y_formula, V_ij_free c hV, shift_x]

/-- The cyclic successor of a grid index is a grid index. -/
theorem emod_succ_nat (L t : Nat) (ht : t < L) :
    ∃ u : Nat, u < L ∧ ((t : Int) + 1) % (L : Int) = (u : Int) := by
  rw [emod_succ_eq_idx_a L t ht]
  exact idx_a_nat L t ht

end ShiftCommute

section Conservation

open Matrix

variable {K : Type} [LinearOrderedField K]

theorem mulVec_apply4 (M : cmat_t K) (v : Fin 4 → Cx K) (m : Fin 4) :
    (M *ᵥ v) m = ∑ k : Fin 4, M m k * v k := rfl

/-- One X sweep at a site, in matrix form: with `A = Xinv·P·X` and `C = Xinv·Q·X`,
the result is `A·(C·s)` at the backward neighbour plus `(1 − A)·(C·s)` at the forward
neighbour. -/
theorem sweep_X_formula_eq (X Xinv : cmat_t K) (hX : X * Xinv = 1) (c : Config K)
    (s : c4mat_t K) (t j : Int) :
    (fun m => sweep_X_formula X Xinv c s t j m) =
      ((Xinv * P_fwd * X) *ᵥ
          ((Xinv * Q_closed_form c.mass_ c.dt_ (V_ij c (idx_k c.L_ t) j) * X)
            *ᵥ s (idx_k c.L_ t) j))
      + ((1 - Xinv * P_fwd * X) *ᵥ
          ((Xinv * Q_closed_form c.mass_ c.dt_ (V_ij c (idx_a c.L_ t) j) * X)
            *ᵥ s (idx_a c.L_ t) j)) := by
  have hcancel : ∀ M : cmat_t K, X * (Xinv * M) = M := fun M => by
    rw [← Matrix.mul_assoc, hX, Matrix.one_mul]
  have hA : (fun m => sweep_X_formula X Xinv c s t j m) =
      Xinv *ᵥ (((P_fwd : cmat_t K) *ᵥ
          ((Q_closed_form c.mass_ c.dt_ (V_ij c (idx_k c.L_ t) j) * X) *ᵥ s (idx_k c.L_ t) j))
        + ((1 - P_fwd) *ᵥ
          ((Q_closed_form c.mass_ c.dt_ (V_ij c (idx_a c.L_ t) j) * X)
            *ᵥ s (idx_a c.L_ t) j))) := by
    funext m
    rw [mulVec_apply4]
    unfold sweep_X_formula
    refine Finset.sum_congr rfl (fun k _ => ?_)
    congr 1
    rw [P_fwd_select]
    unfold stream_src
    split_ifs <;>
    · rw [← mulVec_mulVec, mulVec_apply4]
      rfl
  rw [hA, mulVec_add, mulVec_mulVec, mulVec_mulVec, mulVec_mulVec, mulVec_mulVec,
    mulVec_mulVec, mulVec_mulVec]
  congr 2
  · simp only [Matrix.mul_assoc, hcancel]
  · simp only [Matrix.mul_sub, Matrix.sub_mul, Matrix.mul_one, Matrix.one_mul,
      Matrix.mul_assoc, hcancel]

/-- One Y sweep at a site, in matrix form. -/
theorem sweep_Y_formula_eq (Y Yinv : cmat_t K) (hY : Y * Yinv = 1) (c : Config K)
    (s : c4mat_t K) (i t : Int) :
    (fun m => sweep_Y_formula Y Yinv c s i t m) =
      ((Yinv * P_fwd * Y) *ᵥ
          ((Yinv * Q_closed_form c.mass_ c.dt_ (V_ij c i (idx_k c.L_ t)) * Y)
            *ᵥ s i (idx_k c.L_ t)))
      + ((1 - Yinv * P_fwd * Y) *ᵥ
          ((Yinv * Q_closed_form c.mass_ c.dt_ (V_ij c i (idx_a c.L_ t)) * Y)
            *ᵥ s i (idx_a c.L_ t))) := by
  have hcancel : ∀ M : cmat_t K, Y * (Yinv * M) = M := fun M => by
    rw [← Matrix.mul_assoc, hY, Matrix.one_mul]
  have hA : (fun m => sweep_Y_formula Y Yinv c s i t m) =
      Yinv *ᵥ (((P_fwd : cmat_t K) *ᵥ
          ((Q_closed_form c.mass_ c.dt_ (V_ij c i (idx_k c.L_ t)) * Y) *ᵥ s i (idx_k c.L_ t)))
        + ((1 - P_fwd) *ᵥ
          ((Q_closed_form c.mass_ c.dt_ (V_ij c i (idx_a c.L_ t)) * Y)
            *ᵥ s i (idx_a c.L_ t)))) := by
    funext m
    rw [mulVec_apply4]
    unfold sweep_Y_formula
    refine Finset.sum_congr rfl (fun k _ => ?_)
    congr 1
    rw [P_fwd_select]
    unfold stream_src
    split_ifs <;>
    · rw [← mulVec_mulVec, mulVec_apply4]
      rfl
  rw [hA, mulVec_add, mulVec_mulVec, mulVec_mulVec, mulVec_mulVec, mulVec_mulVec,
    mulVec_mulVec, mulVec_mulVec]
  congr 2
  · simp only [Matrix.mul_assoc, hcancel]
  · simp only [Matrix.mul_sub, Matrix.sub_mul, Matrix.mul_one, Matrix.one_mul,
      Matrix.mul_assoc, hcancel]

/-- The pulled-back channel projector is idempotent. -/
theorem pulled_back_projector_idem (X Xinv : cmat_t K) (hX : X * Xinv = 1) :
    Xinv * P_fwd * X * (Xinv * P_fwd * X) = Xinv * P_fwd * X := by
  have hcancel : ∀ M : cmat_t K, X * (Xinv * M) = M := fun M => by
    rw [← Matrix.mul_assoc, hX, Matrix.one_mul]
  simp only [Matrix.mul_assoc, hcancel]
  rw [← Matrix.mul_assoc P_fwd P_fwd X, P_fwd_mul_self]

/-- One X sweep conserves the summed squared length of the field over the grid. -/
theorem sweep_X_conserves (X Xinv : cmat_t K) (hX : X * Xinv = 1) (c : Config K)
    (hC : ∀ i j : Nat, i < c.L_ → j < c.L_ →
      dagger (Xinv * Q_closed_form c.mass_ c.dt_ (V_ij c i j) * X)
        * (Xinv * Q_closed_form c.mass_ c.dt_ (V_ij c i j) * X) = 1)
    (hP : dagger (Xinv * P_fwd * X) = Xinv * P_fwd * X) (s : c4mat_t K) :
    ∑ i ∈ Finset.range c.L_, ∑ j ∈ Finset.range c.L_,
        ∑ k : Fin 4, Cx.norm (sweep_X_formula X Xinv c s i j k)
      = ∑ i ∈ Finset.range c.L_, ∑ j ∈ Finset.range c.L_,
        ∑ k : Fin 4, Cx.norm (s i j k) := by
  rw [Finset.sum_comm]
  conv_rhs => rw [Finset.sum_comm]
  refine Finset.sum_congr rfl (fun j hj => ?_)
  have h1 := line_conservation (Xinv * P_fwd * X) hP (pulled_back_projector_idem X Xinv hX)
    c.L_ (fun i => (Xinv * Q_closed_form c.mass_ c.dt_ (V_ij c i j) * X) *ᵥ s i j)
  have h2 : ∀ t : Nat, ∀ k : Fin 4, sweep_X_formula X Xinv c s t j k
      = (((Xinv * P_fwd * X) *ᵥ
          ((Xinv * Q_closed_form c.mass_ c.dt_ (V_ij c (idx_k c.L_ t) j) * X)
            *ᵥ s (idx_k c.L_ t) j))
      + ((1 - Xinv * P_fwd * X) *ᵥ
          ((Xinv * Q_closed_form c.mass_ c.dt_ (V_ij c (idx_a c.L_ t) j) * X)
            *ᵥ s (idx_a c.L_ t) j)) : Fin 4 → Cx K) k :=
    fun t k => congrFun (sweep_X_formula_eq X Xinv hX c s t j) k
  simp only [h2]
  rw [h1]
  refine Finset.sum_congr rfl (fun i hi => ?_)
  exact norm_mulVec_of_unitary _ (hC i j (Finset.mem_range.1 hi) (Finset.mem_range.1 hj)) _

/-- One Y sweep conserves the summed squared length of the field over the grid. -/
theorem sweep_Y_conserves (Y Yinv : cmat_t K) (hY : Y * Yinv = 1) (c : Config K)
    (hC : ∀ i j : Nat, i < c.L_ → j < c.L_ →
      dagger (Yinv * Q_closed_form c.mass_ c.dt_ (V_ij c i j) * Y)
        * (Yinv * Q_closed_form c.mass_ c.dt_ (V_ij c i j) * Y) = 1)
    (hP : dagger (Yinv * P_fwd * Y) = Yinv * P_fwd * Y) (s : c4mat_t K) :
    ∑ i ∈ Finset.range c.L_, ∑ j ∈ Finset.range c.L_,
        ∑ k : Fin 4, Cx.norm (sweep_Y_formula Y Yinv c s i j k)
      = ∑ i ∈ Finset.range c.L_, ∑ j ∈ Finset.range c.L_,
        ∑ k : Fin 4, Cx.norm (s i j k) := by
  refine Finset.sum_congr rfl (fun i hi => ?_)
  have h1 := line_conservation (Yinv * P_fwd * Y) hP (pulled_back_projector_idem Y Yinv hY)
    c.L_ (fun j => (Yinv * Q_closed_form c.mass_ c.dt_ (V_ij c i j) * Y) *ᵥ s i j)
  have h2 : ∀ t : Nat, ∀ k : Fin 4, sweep_Y_formula Y Yinv c s i t k
      = (((Yinv * P_fwd * Y) *ᵥ
          ((Yinv * Q_closed_form c.mass_ c.dt_ (V_ij c i (idx_k c.L_ t)) * Y)
            *ᵥ s i (idx_k c.L_ t)))
      + ((1 - Yinv * P_fwd * Y) *ᵥ
          ((Yinv * Q_closed_form c.mass_ c.dt_ (V_ij c i (idx_a c.L_ t)) * Y)
            *ᵥ s i (idx_a c.L_ t))) : Fin 4 → Cx K) k :=
    fun t k => congrFun (sweep_Y_formula_eq Y Yinv hY c s i t) k
  simp only [h2]
  rw [h1]
  refine Finset.sum_congr rfl (fun j hj => ?_)
  exact norm_mulVec_of_unitary _ (hC i j (Finset.mem_range.1 hi) (Finset.mem_range.1 hj)) _

theorem total_probability_eq (c : Config K) (f : c4mat_t K) :
    total_probability c f
      = (∑ i ∈ Finset.range c.L_, ∑ j ∈ Finset.range c.L_,
          ∑ k : Fin 4, Cx.norm (f i j k)) * (c.dx_ * c.dx_) := by
  unfold total_probability
  simp only [Finset.sum_mul]

/-- The total probability reads the field on the grid only. -/
theorem total_probability_congr (c : Config K) (f g : c4mat_t K)
    (h : ∀ i j : Nat, i < c.L_ → j < c.L_ → ∀ k, f i j k = g i j k) :
    total_probability c f = total_probability c g := by
  unfold total_probability
  refine Finset.sum_congr rfl (fun i hi => Finset.sum_congr rfl (fun j hj => ?_))
  simp only [h i j (Finset.mem_range.1 hi) (Finset.mem_range.1 hj)]

/-- Conservation of the total probability by one step, for constants whose pulled-back
collision matrices are unitary and whose pulled-back channel projectors are Hermitian. -/
theorem evolution_CPU_conserves (sqrt : K → K) (k : Constants K) (c : Config K)
    (Q1 : cmat_t K) (st : State K)
    (hX : k.X * k.Xinv = 1) (hY : k.Y * k.Yinv = 1)
    (hCX : ∀ i j : Nat, i < c.L_ → j < c.L_ →
      dagger (k.Xinv * Q_closed_form c.mass_ c.dt_ (V_ij c i j) * k.X)
        * (k.Xinv * Q_closed_form c.mass_ c.dt_ (V_ij c i j) * k.X) = 1)
    (hCY : ∀ i j : Nat, i < c.L_ → j < c.L_ →
      dagger (k.Yinv * Q_closed_form c.mass_ c.dt_ (V_ij c i j) * k.Y)
        * (k.Yinv * Q_closed_form c.mass_ c.dt_ (V_ij c i j) * k.Y) = 1)
    (hPX : dagger (k.Xinv * P_fwd * k.X) = k.Xinv * P_fwd * k.X)
    (hPY : dagger (k.Yinv * P_fwd * k.Y) = k.Yinv * P_fwd * k.Y) :
    total_probability c (evolution_CPU sqrt k c Q1 st).spinor_
      = total_probability c st.spinor_ := by
  rw [total_probability_congr c _ _ (evolution_CPU_spinor sqrt k c Q1 st),
    total_probability_eq, total_probability_eq,
    sweep_Y_conserves k.Y k.Yinv hY c hCY hPY, sweep_X_conserves k.X k.Xinv hX c hCX hPX]

end Conservation

section ExampleLemmas

theorem coll_a_example : coll_a (2 : ℚ) 1 0 = ⟨3 / 5, 0⟩ := by
  ext <;> norm_num [coll_a, coll_den, coll_omega, coll_m, coll_g, one, img, Cx.ofReal]

theorem coll_b_example : coll_b (2 : ℚ) 1 0 = ⟨4 / 5, 0⟩ := by
  ext <;> norm_num [coll_b, coll_den, coll_omega, coll_m, coll_g, one, img, Cx.ofReal]

theorem example_X_apply (r c : Fin 4) :
    example_X r c =
      if r = 0 ∧ c = 1 then 1 else
      if r = 1 ∧ c = 0 then Cx.ofReal 2 else
      if r = 1 ∧ c = 1 then 1 else
      if r = 2 ∧ c = 2 then 1 else
      if r = 3 ∧ c = 3 then 1 else 0 := by
  fin_cases r <;> fin_cases c <;> rfl

theorem example_Xinv_apply (r c : Fin 4) :
    example_Xinv r c =
      if r = 0 ∧ c = 0 then Cx.ofReal (-1 / 2) else
      if r = 0 ∧ c = 1 then Cx.ofReal (1 / 2) else
      if r = 1 ∧ c = 0 then 1 else
      if r = 2 ∧ c = 2 then 1 else
      if r = 3 ∧ c = 3 then 1 else 0 := by
  fin_cases r <;> fin_cases c <;> rfl

theorem example_X_mul_Xinv : example_X * example_Xinv = 1 := by
  ext r c <;> fin_cases r <;> fin_cases c <;>
    (simp [Matrix.mul_apply, Fin.sum_univ_four, example_X_apply, example_Xinv_apply]
     try norm_num)

/-- The collision matrix for `mass = 2`, `dt = 1`, `V = 0`, pulled back by `example_X`. -/
theorem example_pulled_back_Q (Q0 : cmat_t ℚ) :
    example_Xinv * Qhat_X_at 2 1 0 Q0 * example_X
      = Matrix.of fun r c : Fin 4 =>
          if r = c then (⟨3 / 5, 0⟩ : Cx ℚ)
          else if (r = 0 ∧ c = 2) ∨ (r = 1 ∧ c = 3) ∨ (r = 2 ∧ c = 0) ∨ (r = 3 ∧ c = 1)
          then ⟨0, 4 / 5⟩ else 0 := by
  ext r c <;> fin_cases r <;> fin_cases c <;>
    simp [Matrix.mul_apply, Fin.sum_univ_four, example_X_apply, example_Xinv_apply,
      coll_a_example, coll_b_example, img] <;>
    norm_num

theorem example_pulled_back_Q_unitary (Q0 : cmat_t ℚ) :
    dagger (example_Xinv * Qhat_X_at 2 1 0 Q0 * example_X)
      * (example_Xinv * Qhat_X_at 2 1 0 Q0 * example_X) = 1 := by
  rw [example_pulled_back_Q]
  ext r c <;> fin_cases r <;> fin_cases c <;>
    simp [Matrix.mul_apply, Fin.sum_univ_four, dagger] <;>
    norm_num

theorem example_pulled_back_P : example_Xinv * P_fwd * example_X = P_fwd := by
  ext r c <;> fin_cases r <;> fin_cases c <;>
    (simp [Matrix.mul_apply, Fin.sum_univ_four, example_X_apply, example_Xinv_apply, P_fwd,
      (by decide : ¬ ((3 : Fin 4) : ℕ) < 2)]
     try norm_num)

theorem dagger_P_fwd : dagger (P_fwd : cmat_t ℚ) = P_fwd := by
  ext r c <;> fin_cases r <;> fin_cases c <;>
    simp [dagger, P_fwd, (by decide : ¬ ((3 : Fin 4) : ℕ) < 2)]

/-- The hypotheses of the conservation theorem hold for `example_rotated` with `mass = 2`,
`dt = 1` and the free potential. -/
theorem example_rotated_unitary (L : Nat) (dx δ0 : ℚ) (i j : Int) (Q0 : cmat_t ℚ) :
    dagger (example_rotated.Xinv * Qhat_X (⟨L, dx, 2, 1, δ0, 1⟩ : Config ℚ) i j Q0
        * example_rotated.X)
      * (example_rotated.Xinv * Qhat_X (⟨L, dx, 2, 1, δ0, 1⟩ : Config ℚ) i j Q0
        * example_rotated.X) = 1 ∧
    dagger (example_rotated.Yinv * Qhat_Y (⟨L, dx, 2, 1, δ0, 1⟩ : Config ℚ) i j Q0
        * example_rotated.Y)
      * (example_rotated.Yinv * Qhat_Y (⟨L, dx, 2, 1, δ0, 1⟩ : Config ℚ) i j Q0
        * example_rotated.Y) = 1 := by
  have h : V_ij (⟨L, dx, 2, 1, δ0, 1⟩ : Config ℚ) i j = 0 := by simp [V_ij, V_free]
  simp only [Qhat_X, Qhat_Y, Qhat_Y_at_eq_Qhat_X_at, h, example_rotated]
  exact ⟨example_pulled_back_Q_unitary Q0, example_pulled_back_Q_unitary Q0⟩

theorem example_rotated_projector :
    dagger (example_rotated.Xinv * P_fwd * example_rotated.X)
      = example_rotated.Xinv * P_fwd * example_rotated.X ∧
    dagger (example_rotated.Yinv * P_fwd * example_rotated.Y)
      = example_rotated.Yinv * P_fwd * example_rotated.Y := by
  simp only [example_rotated, example_pulled_back_P, dagger_P_fwd, and_self]

end ExampleLemmas

section SelectorLemmas

variable {K : Type} [LinearOrderedField K]

/-- With a non-zero selector `Qhat_X` fills `Q` as for `V = 0`. -/
theorem Qhat_X_free (c : Config K) (hV : c.V_indx_ ≠ 0) (i j : Int) (Q0 : cmat_t K) :
    Qhat_X c i j Q0 = Q_closed_form c.mass_ c.dt_ 0 := by
  rw [Qhat_X, V_ij_free c hV, Qhat_X_at_eq_closed_form]

/-- With a non-zero selector `Qhat_Y` fills `Q` as for `V = 0`. -/
theorem Qhat_Y_free (c : Config K) (hV : c.V_indx_ ≠ 0) (i j : Int) (Q0 : cmat_t K) :
    Qhat_Y c i j Q0 = Q_closed_form c.mass_ c.dt_ 0 := by
  rw [Qhat_Y, V_ij_free c hV, Qhat_Y_at_eq_Qhat_X_at, Qhat_X_at_eq_closed_form]

/-- Two configurations that differ only in a non-zero selector give the same step. -/
theorem evolution_CPU_selector (sqrt : K → K) (k : Constants K) (L : Nat)
    (dx mass dt δ0 : K) (v1 v2 : Int) (h1 : v1 ≠ 0) (h2 : v2 ≠ 0) (Q0 : cmat_t K)
    (st : State K) :
    evolution_CPU sqrt k ⟨L, dx, mass, dt, δ0, v1⟩ Q0 st
      = evolution_CPU sqrt k ⟨L, dx, mass, dt, δ0, v2⟩ Q0 st := by
  have hX : ∀ (aux : c4mat_t K) (i j : Int) (s : c4mat_t K × cmat_t K),
      collide_stream_X_site (⟨L, dx, mass, dt, δ0, v1⟩ : Config K) aux i j s
        = collide_stream_X_site (⟨L, dx, mass, dt, δ0, v2⟩ : Config K) aux i j s := by
    intro aux i j s
    simp only [collide_stream_X_site,
      Qhat_X_free (⟨L, dx, mass, dt, δ0, v1⟩ : Config K) h1,
      Qhat_X_free (⟨L, dx, mass, dt, δ0, v2⟩ : Config K) h2]
  have hY : ∀ (aux : c4mat_t K) (i j : Int) (s : c4mat_t K × cmat_t K),
      collide_stream_Y_site (⟨L, dx, mass, dt, δ0, v1⟩ : Config K) aux i j s
        = collide_stream_Y_site (⟨L, dx, mass, dt, δ0, v2⟩ : Config K) aux i j s := by
    intro aux i j s
    simp only [collide_stream_Y_site,
      Qhat_Y_free (⟨L, dx, mass, dt, δ0, v1⟩ : Config K) h1,
      Qhat_Y_free (⟨L, dx, mass, dt, δ0, v2⟩ : Config K) h2]
  simp only [evolution_CPU, collide_stream_X, collide_stream_Y, hX, hY,
    calculate_macroscopic_vars, macroscopic_site]

end SelectorLemmas

section Claims

variable {K : Type} [LinearOrderedField K]

/-- C1 (counterexample): with `mass = 2`, `dt = 1` and the free potential (`V = 0`, so
`a = 3/5`, `b = 4/5`), the matrix `Q` written by `Qhat_X` at site `(0,0)` does not satisfy
`Q†Q = I`: entry `(0,0)` of `Q†Q` is `29/25`. -/
theorem Qhat_X_not_unitary_example :
    dagger (Qhat_X (⟨4, 1, 2, 1, 1, 1⟩ : Config ℚ) 0 0 0)
      * Qhat_X (⟨4, 1, 2, 1, 1, 1⟩ : Config ℚ) 0 0 0 ≠ 1 := by
  intro h
  have h00 := congrArg (fun M : cmat_t ℚ => (M 0 0).re) h
  simp only [Qhat_X, dagger_mul_self_entry] at h00
  norm_num [Cx.norm, coll_a, coll_b, coll_den, coll_omega, coll_m, coll_g, V_ij, V_free,
    one, img, Cx.ofReal] at h00

/-- C1 (amended): for every real `mass`, `dt` and local potential value `V`, the matrix `Q`
written by `Qhat_X` (and by `Qhat_Y`) satisfies `Q†Q = I` exactly when `mass·dt = 0`. -/
theorem Qhat_unitary_iff (mass dt V : K) (Q0 : cmat_t K) :
    (dagger (Qhat_X_at mass dt V Q0) * Qhat_X_at mass dt V Q0 = 1 ↔ mass * dt = 0) ∧
    (dagger (Qhat_Y_at mass dt V Q0) * Qhat_Y_at mass dt V Q0 = 1 ↔ mass * dt = 0) := by
  have key : dagger (Qhat_X_at mass dt V Q0) * Qhat_X_at mass dt V Q0 = 1 ↔ mass * dt = 0 := by
    constructor
    · intro h
      have h00 := congrArg (fun M : cmat_t K => (M 0 0).re) h
      simp only [dagger_mul_self_entry] at h00
      have hab := coll_norm_a_add_norm_b mass dt V
      have hb : Cx.norm (coll_b mass dt V) = 0 := by
        have h1 : ((1 : cmat_t K) 0 0).re = 1 := by simp
        rw [h1] at h00
        linarith
      exact (coll_norm_b_eq_zero_iff mass dt V).1 hb
    · intro h
      exact dagger_mul_self_diag mass dt V Q0 (coll_b_eq_zero mass dt V h)
  exact ⟨key, by rw [Qhat_Y_at_eq_Qhat_X_at]; exact key⟩

/-- C2: for every site and configuration, `Qhat_X(i,j)` fills `Q` with exactly the closed
form of the specification, whatever `Q` held before; in particular the result does not
depend on the previous content of `Q`. -/
theorem Qhat_X_closed_form (c : Config K) (i j : Int) (Q0 : cmat_t K) :
    Qhat_X c i j Q0 = Q_closed_form c.mass_ c.dt_ (V_ij c i j) ∧
    ∀ Q1 : cmat_t K, Qhat_X c i j Q1 = Qhat_X c i j Q0 := by
  refine ⟨Qhat_X_at_eq_closed_form _ _ _ Q0, fun Q1 => ?_⟩
  rw [Qhat_X, Qhat_X, Qhat_X_at_eq_closed_form, Qhat_X_at_eq_closed_form]

/-- C3: for every real `mass`, `dt` and `V`, the divisor `1 + 0.25ω − i·g` of the
coefficients `a` and `b` is a non-zero complex number, and so the real number
`re² + im²` by which the complex division divides is positive. -/
theorem coll_den_ne_zero (mass dt V : K) :
    coll_den mass dt V ≠ 0 ∧
    0 < (coll_den mass dt V).re * (coll_den mass dt V).re
      + (coll_den mass dt V).im * (coll_den mass dt V).im := by
  refine ⟨fun h => ?_, coll_den_norm_pos mass dt V⟩
  have hpos := coll_den_norm_pos mass dt V
  rw [h] at hpos
  simp at hpos

/-- C4 (counterexample): with the harmonic potential, `L = 8`, `dx = 1`, `mass = 1`,
`dt = 1/100`, `δ0 = 1`, the real part of the divisor at the corner site `(0,0)`
(where `V = −49/16`) is below 1. -/
theorem coll_den_re_lt_one_example :
    ¬ (1 ≤ (coll_den (1 : ℚ) (1 / 100)
        (V_ij (⟨8, 1, 1, 1 / 100, 1, 0⟩ : Config ℚ) 0 0)).re) := by
  norm_num [coll_den_re, coll_omega, coll_m, coll_g, V_ij, V_harmonic, L_minus_1]

/-- C4 (amended): for `dt > 0` and real `mass`, `V`, the real part `1 + 0.25·(m² − g²)` of
the divisor is `≥ 1` exactly when `V² ≤ mass²`. -/
theorem coll_den_re_ge_one_iff (mass dt V : K) (hdt : 0 < dt) :
    1 ≤ (coll_den mass dt V).re ↔ V * V ≤ mass * mass := by
  rw [coll_den_re, coll_omega, coll_m, coll_g]
  have h2 : 0 < dt * dt := mul_pos hdt hdt
  have e : (1 : K) + 0.25 * (0.5 * mass * dt * (0.5 * mass * dt) - 0.5 * V * dt * (0.5 * V * dt))
      = 1 + (mass * mass - V * V) * (dt * dt) / 16 := by
    norm_num
    ring
  rw [e]
  constructor
  · intro h
    have h3 : 0 ≤ (mass * mass - V * V) * (dt * dt) := by linarith
    have h4 : 0 ≤ mass * mass - V * V := nonneg_of_mul_nonneg_left h3 h2
    linarith
  · intro h
    have h3 : 0 ≤ (mass * mass - V * V) * (dt * dt) :=
      mul_nonneg (by linarith) h2.le
    linarith

/-- C4 (witness): the amended statement at `mass = 2`, `dt = 1`, `V = 1`. -/
theorem coll_den_re_ge_one_iff_witness :
    (0 : ℚ) < 1 ∧ (1 ≤ (coll_den (2 : ℚ) 1 1).re ↔ (1 : ℚ) * 1 ≤ 2 * 2) :=
  ⟨by norm_num, coll_den_re_ge_one_iff 2 1 1 (by norm_num)⟩

/-- C5: when `mass = 0` and the potential is the free one (`V_indx_ ≠ 0`, so `V = 0`), for
every `dt` and every site the divisor of the collision coefficients is 1, `a = 1`, `b = 0`,
and the matrix written by `Qhat_X` and by `Qhat_Y` is the 4×4 identity. -/
theorem Qhat_massless_free (c : Config K) (i j : Int) (Q0 : cmat_t K)
    (hm : c.mass_ = 0) (hV : c.V_indx_ ≠ 0) :
    V_ij c i j = 0 ∧
    coll_den c.mass_ c.dt_ (V_ij c i j) = 1 ∧
    coll_a c.mass_ c.dt_ (V_ij c i j) = 1 ∧
    coll_b c.mass_ c.dt_ (V_ij c i j) = 0 ∧
    Qhat_X c i j Q0 = 1 ∧ Qhat_Y c i j Q0 = 1 :=
  massless_free_facts c i j Q0 hm hV

/-- C5 (witness): `L = 4`, `mass = 0`, `dt = 1/100`, free potential, site `(3,2)`. -/
theorem Qhat_massless_free_witness :
    (⟨4, 1, 0, 1 / 100, 2, 1⟩ : Config ℚ).mass_ = 0 ∧
    (⟨4, 1, 0, 1 / 100, 2, 1⟩ : Config ℚ).V_indx_ ≠ 0 ∧
    Qhat_X (⟨4, 1, 0, 1 / 100, 2, 1⟩ : Config ℚ) 3 2 0 = 1 :=
  ⟨rfl, by decide,
    (Qhat_massless_free (⟨4, 1, 0, 1 / 100, 2, 1⟩ : Config ℚ) 3 2 0 rfl (by decide)).2.2.2.2.1⟩

/-- C6: for `1 ≤ L` (an `unsigned`, so `L < 2³²`), `mass ≠ 0`, `δ0 ≠ 0` and all integer
indices, the divisor `2·mass·δ0²` of `ω0` is non-zero and
`V_harmonic(i,j) = −0.5·mass·ω0²·(x² + y²)` with `ω0 = 1/(2·mass·δ0²)`,
`x = dx·(i − 0.5·(L−1))`, `y = dx·(j − 0.5·(L−1))`; it is `≤ 0` when `mass > 0`.  The value
is a function of the indices and of the configuration only. -/
theorem V_harmonic_formula (c : Config K) (i j : Int)
    (hL : 1 ≤ c.L_) (hL32 : c.L_ < 2 ^ 32) (hm : c.mass_ ≠ 0) (hd : c.delta0_ ≠ 0) :
    2.0 * c.mass_ * c.delta0_ * c.delta0_ ≠ 0 ∧
    V_harmonic c i j =
      -(0.5 * c.mass_ * (1 / (2 * c.mass_ * c.delta0_ ^ 2)) ^ 2 *
        ((c.dx_ * ((i : K) - 0.5 * ((c.L_ : K) - 1))) ^ 2
          + (c.dx_ * ((j : K) - 0.5 * ((c.L_ : K) - 1))) ^ 2)) ∧
    (0 < c.mass_ → V_harmonic c i j ≤ 0) := by
  have hc : ((L_minus_1 c.L_ : Nat) : K) = (c.L_ : K) - 1 := by
    rw [L_minus_1_eq c.L_ hL hL32, Nat.cast_sub hL, Nat.cast_one]
  have hne : (2.0 : K) * c.mass_ * c.delta0_ * c.delta0_ ≠ 0 :=
    mul_ne_zero (mul_ne_zero (mul_ne_zero (by norm_num) hm) hd) hd
  have hform : V_harmonic c i j =
      -(0.5 * c.mass_ * (1 / (2 * c.mass_ * c.delta0_ ^ 2)) ^ 2 *
        ((c.dx_ * ((i : K) - 0.5 * ((c.L_ : K) - 1))) ^ 2
          + (c.dx_ * ((j : K) - 0.5 * ((c.L_ : K) - 1))) ^ 2)) := by
    simp only [V_harmonic, hc]
    norm_num
    ring
  refine ⟨hne, hform, fun hpos => ?_⟩
  rw [hform, neg_nonpos]
  have h5 : (0 : K) ≤ 0.5 := by norm_num
  positivity

/-- C6 (witness): `L = 8`, `dx = 1`, `mass = 1`, `δ0 = 1`, site `(0,0)`. -/
theorem V_harmonic_formula_witness :
    (1 ≤ (⟨8, 1, 1, 1 / 100, 1, 0⟩ : Config ℚ).L_ ∧
      (⟨8, 1, 1, 1 / 100, 1, 0⟩ : Config ℚ).L_ < 2 ^ 32 ∧
      (⟨8, 1, 1, 1 / 100, 1, 0⟩ : Config ℚ).mass_ ≠ 0 ∧
      (⟨8, 1, 1, 1 / 100, 1, 0⟩ : Config ℚ).delta0_ ≠ 0 ∧
      0 < (⟨8, 1, 1, 1 / 100, 1, 0⟩ : Config ℚ).mass_) ∧
    V_harmonic (⟨8, 1, 1, 1 / 100, 1, 0⟩ : Config ℚ) 0 0 ≤ 0 :=
  ⟨⟨by decide, by decide, by decide, by decide, by decide⟩,
    (V_harmonic_formula (⟨8, 1, 1, 1 / 100, 1, 0⟩ : Config ℚ) 0 0 (by decide) (by decide)
      (by decide) (by decide)).2.2 (by decide)⟩

/-- C7 (the code at the failing input): for `L = 2`, `dx = 1`, `mass = 1`, `δ0 = 1` and
site `(0,0)`, where `x = y = −1/2`, `V_harmonic` returns `−1/16`, while the formula
documented in the header, `1/2·m·w0²·r²`, is `+1/16`. -/
theorem V_harmonic_sign_example :
    V_harmonic (⟨2, 1, 1, 1, 1, 0⟩ : Config ℚ) 0 0 = -(1 / 16) ∧
    V_harmonic_documented (⟨2, 1, 1, 1, 1, 0⟩ : Config ℚ) 0 0 = 1 / 16 := by
  constructor
  · norm_num [V_harmonic, L_minus_1]
  · norm_num [V_harmonic_documented]

/-- C8: postcondition of the collide-and-stream loops.  For every `L ≥ 1` (the sites
`i, j < L` exist), every rotated field `r` (the copy in `spinoraux_`), whatever
`spinorrot_` and `Q` held before the loop: for every source site `(i,j)` of the grid, with
`Q = Qhat_X(i,j)`, the final `spinorrot_` holds `Σₙ Q(k,n)·r(i,j,n)` at
`((i+1) mod L, j, k)` for `k ∈ {0,1}` and at `((i−1+L) mod L, j, k)` for `k ∈ {2,3}`;
the Y loop satisfies the same with the shift applied to `j` and `Qhat_Y`. -/
theorem collide_stream_postcondition (c : Config K) (r rot0 : c4mat_t K) (Q0 Q1 : cmat_t K)
    (i j : Nat) (hi : i < c.L_) (hj : j < c.L_) :
    (∀ k : Fin 4, k.val < 2 →
      (collide_stream_X c r (rot0, Q0)).1 (((i : Int) + 1) % (c.L_ : Int)) (j : Int) k
        = ∑ n : Fin 4, Qhat_X c i j Q1 k n * r i j n) ∧
    (∀ k : Fin 4, 2 ≤ k.val →
      (collide_stream_X c r (rot0, Q0)).1 (((i : Int) - 1 + (c.L_ : Int)) % (c.L_ : Int))
          (j : Int) k
        = ∑ n : Fin 4, Qhat_X c i j Q1 k n * r i j n) ∧
    (∀ k : Fin 4, k.val < 2 →
      (collide_stream_Y c r (rot0, Q0)).1 (i : Int) (((j : Int) + 1) % (c.L_ : Int)) k
        = ∑ n : Fin 4, Qhat_Y c i j Q1 k n * r i j n) ∧
    (∀ k : Fin 4, 2 ≤ k.val →
      (collide_stream_Y c r (rot0, Q0)).1 (i : Int)
          (((j : Int) - 1 + (c.L_ : Int)) % (c.L_ : Int)) k
        = ∑ n : Fin 4, Qhat_Y c i j Q1 k n * r i j n) := by
  have hX : ∀ k : Fin 4, Qhat_X c i j Q1 k = Q_closed_form c.mass_ c.dt_ (V_ij c i j) k := by
    intro k
    rw [Qhat_X, Qhat_X_at_eq_closed_form]
  have hY : ∀ k : Fin 4, Qhat_Y c i j Q1 k = Q_closed_form c.mass_ c.dt_ (V_ij c i j) k := by
    intro k
    rw [Qhat_Y, Qhat_Y_at_eq_Qhat_X_at, Qhat_X_at_eq_closed_form]
  refine ⟨fun k hk => ?_, fun k hk => ?_, fun k hk => ?_, fun k hk => ?_⟩
  · have h := collide_stream_X_target c r (rot0, Q0) i j hi hj k
    rw [if_pos hk] at h
    rw [h, hX]
  · have h := collide_stream_X_target c r (rot0, Q0) i j hi hj k
    rw [if_neg (by omega)] at h
    rw [h, hX]
  · have h := collide_stream_Y_target c r (rot0, Q0) i j hi hj k
    rw [if_pos hk] at h
    rw [h, hY]
  · have h := collide_stream_Y_target c r (rot0, Q0) i j hi hj k
    rw [if_neg (by omega)] at h
    rw [h, hY]

/-- C8 (witness): `L = 2`, where both targets of source `(0,1)` are the site `(1,1)`. -/
theorem collide_stream_postcondition_witness :
    (0 < (⟨2, 1, 2, 1, 1, 1⟩ : Config ℚ).L_ ∧ 1 < (⟨2, 1, 2, 1, 1, 1⟩ : Config ℚ).L_) ∧
    ∀ k : Fin 4, k.val < 2 →
      (collide_stream_X (⟨2, 1, 2, 1, 1, 1⟩ : Config ℚ) (fun _ _ _ => 1)
          (fun _ _ _ => 0, 0)).1
        ((((0 : Nat) : Int) + 1) % (((⟨2, 1, 2, 1, 1, 1⟩ : Config ℚ).L_ : Nat) : Int))
        ((1 : Nat) : Int) k
      = ∑ n : Fin 4, Qhat_X (⟨2, 1, 2, 1, 1, 1⟩ : Config ℚ) ((0 : Nat) : Int) ((1 : Nat) : Int)
          0 k n * (1 : Cx ℚ) :=
  ⟨⟨by decide, by decide⟩,
    (collide_stream_postcondition (⟨2, 1, 2, 1, 1, 1⟩ : Config ℚ) (fun _ _ _ => 1)
      (fun _ _ _ => 0) 0 0 0 1 (by decide) (by decide)).1⟩

/-- C9: rotation round trip.  Given `X·Xinv = I`, the rotate-by-`X` loop
(`spinorrot_ = X·spinor_`) followed at once by the rotate-back loop
(`spinor_ = Xinv·spinorrot_`) returns the original field at every site and channel, for
every `L` and every field; likewise for `Y` and `Yinv` given `Y·Yinv = I`. -/
theorem rotate_round_trip (X Xinv Y Yinv : cmat_t K) (hX : X * Xinv = 1) (hY : Y * Yinv = 1)
    (L : Nat) (spinor rot : c4mat_t K) :
    rotate Xinv L (rotate X L spinor rot) spinor = spinor ∧
    rotate Yinv L (rotate Y L spinor rot) spinor = spinor := by
  have key : ∀ M Minv : cmat_t K, M * Minv = 1 →
      rotate Minv L (rotate M L spinor rot) spinor = spinor := by
    intro M Minv h
    have h1 : Minv * M = 1 := Matrix.mul_eq_one_comm.1 h
    funext ti tj k
    by_cases hin : 0 ≤ ti ∧ ti < L ∧ 0 ≤ tj ∧ tj < L
    · obtain ⟨h0, h2, h3, h4⟩ := hin
      lift ti to Nat using h0
      lift tj to Nat using h3
      have hi : ti < L := by exact_mod_cast h2
      have hj : tj < L := by exact_mod_cast h4
      rw [rotate_apply_in Minv L _ spinor ti tj hi hj k]
      simp only [rotate_apply_in M L spinor rot ti tj hi hj]
      have e : ∀ m : Fin 4, (Minv * M) k m = ∑ n : Fin 4, Minv k n * M n m :=
        fun m => Matrix.mul_apply
      calc ∑ n : Fin 4, Minv k n * ∑ m : Fin 4, M n m * spinor ti tj m
          = ∑ m : Fin 4, (∑ n : Fin 4, Minv k n * M n m) * spinor ti tj m := by
            simp only [Finset.mul_sum, Finset.sum_mul]
            rw [Finset.sum_comm]
            simp only [mul_assoc]
        _ = ∑ m : Fin 4, (1 : cmat_t K) k m * spinor ti tj m := by
            simp only [← e, h1]
        _ = spinor ti tj k := by simp [Matrix.one_apply]
    · exact rotate_apply_out Minv L _ spinor ti tj k hin
  exact ⟨key X Xinv hX, key Y Yinv hY⟩

/-- C9 (witness): `L = 2` with identity rotation matrices. -/
theorem rotate_round_trip_witness :
    ((1 : cmat_t ℚ) * 1 = 1 ∧ (1 : cmat_t ℚ) * 1 = 1) ∧
    rotate (1 : cmat_t ℚ) 2 (rotate 1 2 (fun i j _ => ⟨i, j⟩) (fun _ _ _ => 0))
      (fun i j _ => ⟨i, j⟩) = (fun i j _ => ⟨i, j⟩) :=
  ⟨⟨mul_one 1, mul_one 1⟩,
    (rotate_round_trip (1 : cmat_t ℚ) 1 1 1 (mul_one 1) (mul_one 1) 2
      (fun i j _ => ⟨i, j⟩) (fun _ _ _ => 0)).1⟩

/-- C10: with `mass = 0` and the free potential the X collide-and-stream loop is a pure
periodic shift: channels 0, 1 of the output at `((i+1) mod L, j)` are channels 0, 1 of the
input at `(i,j)`, channels 2, 3 of the output at `((i−1+L) mod L, j)` are channels 2, 3 of
the input at `(i,j)`.  For `L = 4` an input that is non-zero only at `(0,0,channel 0)`
gives an output that, on the grid, is non-zero only at `(1,0,channel 0)`, with the same
amplitude; and channel 0 at `i = L−1` moves to index 0. -/
theorem collide_stream_X_massless_free_shift (c : Config K) (hm : c.mass_ = 0)
    (hV : c.V_indx_ ≠ 0) (r rot0 : c4mat_t K) (Q0 : cmat_t K) :
    (∀ i j : Nat, i < c.L_ → j < c.L_ →
      (∀ k : Fin 4, k.val < 2 →
        (collide_stream_X c r (rot0, Q0)).1 (((i : Int) + 1) % (c.L_ : Int)) (j : Int) k
          = r i j k) ∧
      (∀ k : Fin 4, 2 ≤ k.val →
        (collide_stream_X c r (rot0, Q0)).1 (((i : Int) - 1 + (c.L_ : Int)) % (c.L_ : Int))
          (j : Int) k = r i j k)) ∧
    (c.L_ = 4 → (∀ (i j : Int) (k : Fin 4), r i j k ≠ 0 → i = 0 ∧ j = 0 ∧ k = 0) →
      ∀ (ti tj : Nat) (k : Fin 4), ti < 4 → tj < 4 →
        (collide_stream_X c r (rot0, Q0)).1 (ti : Int) (tj : Int) k
          = if ti = 1 ∧ tj = 0 ∧ k = 0 then r 0 0 0 else 0) ∧
    (∀ j : Nat, 1 ≤ c.L_ → j < c.L_ →
      (collide_stream_X c r (rot0, Q0)).1 0 (j : Int) 0 = r ((c.L_ : Int) - 1) (j : Int) 0) := by
  have base := collide_stream_X_massless_free_target c hm hV r (rot0, Q0)
  refine ⟨fun i j hi hj => ⟨fun k hk => ?_, fun k hk => ?_⟩, ?_, ?_⟩
  · have h := base i j hi hj k
    rwa [if_pos hk] at h
  · have h := base i j hi hj k
    rwa [if_neg (by omega)] at h
  · intro hL hr ti tj k hti htj
    have h := base (if k.val < 2 then (ti + 3) % 4 else (ti + 1) % 4) tj
      (by rw [hL]; split_ifs <;> omega) (by rw [hL]; exact htj) k
    have e : (if k.val < 2
          then (((if k.val < 2 then (ti + 3) % 4 else (ti + 1) % 4 : Nat) : Int) + 1)
            % (c.L_ : Int)
          else (((if k.val < 2 then (ti + 3) % 4 else (ti + 1) % 4 : Nat) : Int) - 1
            + (c.L_ : Int)) % (c.L_ : Int)) = (ti : Int) := by
      rw [hL]
      split_ifs <;> omega
    rw [e] at h
    rw [h]
    by_cases hc : ti = 1 ∧ tj = 0 ∧ k = 0
    · obtain ⟨rfl, rfl, rfl⟩ := hc
      rfl
    · rw [if_neg hc]
      by_contra hne
      obtain ⟨e1, e2, e3⟩ := hr _ _ _ hne
      subst e3
      apply hc
      refine ⟨?_, by exact_mod_cast e2, rfl⟩
      rw [if_pos (by decide)] at e1
      omega
  · intro j hL hj
    have h := base (c.L_ - 1) j (by omega) hj 0
    rw [if_pos (by decide)] at h
    have e : (((c.L_ - 1 : Nat) : Int) + 1) % (c.L_ : Int) = 0 := by
      have : (((c.L_ - 1 : Nat) : Int) + 1) = (c.L_ : Int) := by omega
      rw [this, Int.emod_self]
    rw [e] at h
    rw [h]
    congr 1
    omega

/-- C10 (witness): `L = 4`, `mass = 0`, free potential, amplitude at `(3,0,channel 0)`. -/
theorem collide_stream_X_massless_free_shift_witness :
    ((⟨4, 1, 0, 1 / 100, 2, 1⟩ : Config ℚ).mass_ = 0 ∧
      (⟨4, 1, 0, 1 / 100, 2, 1⟩ : Config ℚ).V_indx_ ≠ 0) ∧
    ∀ j : Nat, 1 ≤ (⟨4, 1, 0, 1 / 100, 2, 1⟩ : Config ℚ).L_ →
      j < (⟨4, 1, 0, 1 / 100, 2, 1⟩ : Config ℚ).L_ →
      (collide_stream_X (⟨4, 1, 0, 1 / 100, 2, 1⟩ : Config ℚ)
          (fun i j k => if i = 3 ∧ j = 0 ∧ k = 0 then 1 else 0) (fun _ _ _ => 0, 0)).1
        0 (j : Int) 0
      = (fun (i j : Int) (k : Fin 4) => if i = 3 ∧ j = 0 ∧ k = 0 then (1 : Cx ℚ) else 0)
          ((((⟨4, 1, 0, 1 / 100, 2, 1⟩ : Config ℚ).L_ : Nat) : Int) - 1) (j : Int) 0 :=
  ⟨⟨rfl, by decide⟩,
    (collide_stream_X_massless_free_shift (⟨4, 1, 0, 1 / 100, 2, 1⟩ : Config ℚ) rfl
      (by decide) (fun i j k => if i = 3 ∧ j = 0 ∧ k = 0 then 1 else 0)
      (fun _ _ _ => 0) 0).2.2⟩

/-- C11 (counterexample): with identity rotation matrices (so `X·Xinv = I`, `Y·Yinv = I`),
`L = 1`, `dx = 1`, `mass = 2`, `dt = 1`, the free potential and the field `(1,0,0,0)`, the
total probability is 1 before the step and `769/625` after it. -/
theorem total_probability_not_conserved_example :
    ((1 : cmat_t ℚ) * 1 = 1 ∧ (1 : cmat_t ℚ) * 1 = 1) ∧
    total_probability (⟨1, 1, 2, 1, 1, 1⟩ : Config ℚ)
        (evolution_CPU id ⟨1, 1, 1, 1, 1, 1⟩ (⟨1, 1, 2, 1, 1, 1⟩ : Config ℚ) 0
          (State.ofField (fun _ _ k => if k = 0 then 1 else 0))).spinor_
      ≠ total_probability (⟨1, 1, 2, 1, 1, 1⟩ : Config ℚ)
          (State.ofField (fun _ _ k => if k = 0 then 1 else 0)).spinor_ := by
  refine ⟨⟨mul_one 1, mul_one 1⟩, ?_⟩
  rw [total_probability_congr _ _ _ (evolution_CPU_spinor id _ _ 0 _)]
  simp [total_probability, sweep_Y_formula, sweep_X_formula, stream_src, idx_a, idx_k, V_ij,
    V_free, ← Qhat_X_at_eq_closed_form (2 : ℚ) 1 0 0, Fin.sum_univ_four, Matrix.one_apply,
    coll_a_example, coll_b_example, img, Cx.norm, State.ofField]
  norm_num

/-- C11 (amended): total probability is conserved by a step, `Σᵢⱼ ρ(i,j)·dx²` after
`evolution_CPU` equals its value before, for constants with `X·Xinv = I`, `Y·Yinv = I`
such that, in addition, the collision matrix pulled back to the spinor basis, `Xinv·Q·X`
and `Yinv·Q·Y`, is unitary at every site of the grid, and the pulled-back projector on the
forward channels, `Xinv·diag(1,1,0,0)·X` and `Yinv·diag(1,1,0,0)·Y`, is Hermitian. -/
theorem total_probability_conserved (sqrt : K → K) (k : Constants K) (c : Config K)
    (Q0 Q1 : cmat_t K) (st : State K)
    (hX : k.X * k.Xinv = 1) (hY : k.Y * k.Yinv = 1)
    (hCX : ∀ i j : Nat, i < c.L_ → j < c.L_ →
      dagger (k.Xinv * Qhat_X c i j Q0 * k.X) * (k.Xinv * Qhat_X c i j Q0 * k.X) = 1)
    (hCY : ∀ i j : Nat, i < c.L_ → j < c.L_ →
      dagger (k.Yinv * Qhat_Y c i j Q0 * k.Y) * (k.Yinv * Qhat_Y c i j Q0 * k.Y) = 1)
    (hPX : dagger (k.Xinv * P_fwd * k.X) = k.Xinv * P_fwd * k.X)
    (hPY : dagger (k.Yinv * P_fwd * k.Y) = k.Yinv * P_fwd * k.Y) :
    total_probability c (evolution_CPU sqrt k c Q1 st).spinor_
      = total_probability c st.spinor_ := by
  refine evolution_CPU_conserves sqrt k c Q1 st hX hY (fun i j hi hj => ?_)
    (fun i j hi hj => ?_) hPX hPY
  · have h := hCX i j hi hj
    rwa [Qhat_X, Qhat_X_at_eq_closed_form] at h
  · have h := hCY i j hi hj
    rwa [Qhat_Y, Qhat_Y_at_eq_Qhat_X_at, Qhat_X_at_eq_closed_form] at h

/-- C11 (witness): the rotation `example_X` on both axes, `L = 2`, `mass = 2`, `dt = 1`,
the free potential, and a field that differs from site to site. -/
theorem total_probability_conserved_witness :
    (example_rotated.X * example_rotated.Xinv = 1 ∧
      example_rotated.Y * example_rotated.Yinv = 1 ∧
      (∀ i j : Nat, i < (⟨2, 1, 2, 1, 1, 1⟩ : Config ℚ).L_ →
        j < (⟨2, 1, 2, 1, 1, 1⟩ : Config ℚ).L_ →
        dagger (example_rotated.Xinv * Qhat_X (⟨2, 1, 2, 1, 1, 1⟩ : Config ℚ) i j 0
            * example_rotated.X)
          * (example_rotated.Xinv * Qhat_X (⟨2, 1, 2, 1, 1, 1⟩ : Config ℚ) i j 0
            * example_rotated.X) = 1) ∧
      (∀ i j : Nat, i < (⟨2, 1, 2, 1, 1, 1⟩ : Config ℚ).L_ →
        j < (⟨2, 1, 2, 1, 1, 1⟩ : Config ℚ).L_ →
        dagger (example_rotated.Yinv * Qhat_Y (⟨2, 1, 2, 1, 1, 1⟩ : Config ℚ) i j 0
            * example_rotated.Y)
          * (example_rotated.Yinv * Qhat_Y (⟨2, 1, 2, 1, 1, 1⟩ : Config ℚ) i j 0
            * example_rotated.Y) = 1) ∧
      dagger (example_rotated.Xinv * P_fwd * example_rotated.X)
        = example_rotated.Xinv * P_fwd * example_rotated.X ∧
      dagger (example_rotated.Yinv * P_fwd * example_rotated.Y)
        = example_rotated.Yinv * P_fwd * example_rotated.Y) ∧
    @total_probability ℚ LinearOrderedField.toField (⟨2, 1, 2, 1, 1, 1⟩ : Config ℚ)
        (@evolution_CPU ℚ LinearOrderedField.toField id example_rotated
          (⟨2, 1, 2, 1, 1, 1⟩ : Config ℚ) 0 (State.ofField (fun a b _ => (⟨a, b⟩ : Cx ℚ)))).spinor_
      = @total_probability ℚ LinearOrderedField.toField (⟨2, 1, 2, 1, 1, 1⟩ : Config ℚ)
        (State.ofField (fun a b _ => (⟨a, b⟩ : Cx ℚ))).spinor_ :=
  ⟨⟨example_X_mul_Xinv, example_X_mul_Xinv,
      fun i j _ _ => (example_rotated_unitary 2 1 1 i j 0).1,
      fun i j _ _ => (example_rotated_unitary 2 1 1 i j 0).2,
      example_rotated_projector.1, example_rotated_projector.2⟩,
    total_probability_conserved id example_rotated (⟨2, 1, 2, 1, 1, 1⟩ : Config ℚ) 0 0
      (State.ofField (fun a b _ => (⟨a, b⟩ : Cx ℚ))) example_X_mul_Xinv example_X_mul_Xinv
      (fun i j _ _ => (example_rotated_unitary 2 1 1 i j 0).1)
      (fun i j _ _ => (example_rotated_unitary 2 1 1 i j 0).2)
      example_rotated_projector.1 example_rotated_projector.2⟩

/-- C12: after `calculate_macroscopic_vars` (which leaves `spinor_` as it was), for every
site `(i,j)` of the grid the stored density `rho_(i,j)` is `Σ_{k=0..3} |spinor_(i,j,k)|²`;
its imaginary part is zero and it is `≥ 0`, for every field. -/
theorem rho_is_density (sqrt : K → K) (k : Constants K) (c : Config K) (st : State K)
    (i j : Nat) (hi : i < c.L_) (hj : j < c.L_) :
    (calculate_macroscopic_vars sqrt k c st).spinor_ = st.spinor_ ∧
    (calculate_macroscopic_vars sqrt k c st).rho_ i j
      = Cx.ofReal (∑ n : Fin 4, Cx.norm (st.spinor_ i j n)) ∧
    ((calculate_macroscopic_vars sqrt k c st).rho_ i j).im = 0 ∧
    0 ≤ ((calculate_macroscopic_vars sqrt k c st).rho_ i j).re := by
  have h := calc_rho_in sqrt k c st i j hi hj
  refine ⟨rfl, ?_, ?_, ?_⟩
  · rw [h, Fin.sum_univ_four]
  · rw [h]; rfl
  · rw [h]
    simp only [Cx.ofReal_re]
    have h0 := cx_norm_nonneg (st.spinor_ i j 0)
    have h1 := cx_norm_nonneg (st.spinor_ i j 1)
    have h2 := cx_norm_nonneg (st.spinor_ i j 2)
    have h3 := cx_norm_nonneg (st.spinor_ i j 3)
    linarith

/-- C12 (witness): `L = 2`, every channel of every site holding `1 + 2i`, site `(0,1)`. -/
theorem rho_is_density_witness :
    (0 < (⟨2, 1, 1, 1, 1, 1⟩ : Config ℚ).L_ ∧ 1 < (⟨2, 1, 1, 1, 1, 1⟩ : Config ℚ).L_) ∧
    0 ≤ ((calculate_macroscopic_vars id ⟨1, 1, 1, 1, 1, 1⟩ (⟨2, 1, 1, 1, 1, 1⟩ : Config ℚ)
      (State.ofField (fun _ _ _ => ⟨1, 2⟩))).rho_ (0 : Nat) (1 : Nat)).re :=
  ⟨⟨by decide, by decide⟩,
    (rho_is_density id ⟨1, 1, 1, 1, 1, 1⟩ (⟨2, 1, 1, 1, 1, 1⟩ : Config ℚ)
      (State.ofField (fun _ _ _ => ⟨1, 2⟩)) 0 1 (by decide) (by decide)).2.2.2⟩

/-- C13: after `calculate_macroscopic_vars` (with `L_` an `unsigned`, so `L < 2³²`),
`deltax_ = sqrt(Σᵢⱼ x²·|spinor_(i,j,0)|²·dV / Σᵢⱼ |spinor_(i,j,0)|²·dV)` with
`x = dx·(i − 0.5·(L−1))` and `dV = dx²`, and `deltay_` is the same with
`y = dx·(j − 0.5·(L−1))`; a state that agrees in channel 0 gives the same `deltax_` and
`deltay_`, whatever its channels 1–3 hold. -/
theorem spread_formula (sqrt : K → K) (k : Constants K) (c : Config K) (st : State K)
    (hL32 : c.L_ < 2 ^ 32) :
    (calculate_macroscopic_vars sqrt k c st).deltax_ =
      sqrt ((∑ i ∈ Finset.range c.L_, ∑ j ∈ Finset.range c.L_,
          (c.dx_ * ((i : K) - 0.5 * ((c.L_ : K) - 1))) ^ 2
            * Cx.norm (st.spinor_ i j 0) * c.dx_ ^ 2)
        / (∑ i ∈ Finset.range c.L_, ∑ j ∈ Finset.range c.L_,
          Cx.norm (st.spinor_ i j 0) * c.dx_ ^ 2)) ∧
    (calculate_macroscopic_vars sqrt k c st).deltay_ =
      sqrt ((∑ i ∈ Finset.range c.L_, ∑ j ∈ Finset.range c.L_,
          (c.dx_ * ((j : K) - 0.5 * ((c.L_ : K) - 1))) ^ 2
            * Cx.norm (st.spinor_ i j 0) * c.dx_ ^ 2)
        / (∑ i ∈ Finset.range c.L_, ∑ j ∈ Finset.range c.L_,
          Cx.norm (st.spinor_ i j 0) * c.dx_ ^ 2)) ∧
    ∀ st1 : State K, (∀ i j, st1.spinor_ i j 0 = st.spinor_ i j 0) →
      (calculate_macroscopic_vars sqrt k c st1).deltax_
        = (calculate_macroscopic_vars sqrt k c st).deltax_ ∧
      (calculate_macroscopic_vars sqrt k c st1).deltay_
        = (calculate_macroscopic_vars sqrt k c st).deltay_ := by
  refine ⟨calc_deltax_spec sqrt k c st hL32, calc_deltay_spec sqrt k c st hL32, ?_⟩
  intro st1 h
  rw [calc_deltax, calc_deltax, calc_deltay, calc_deltay]
  simp [h]

/-- C13 (witness): `L = 2`; changing channels 1–3 leaves the spreads unchanged. -/
theorem spread_formula_witness :
    (⟨2, 1, 1, 1, 1, 1⟩ : Config ℚ).L_ < 2 ^ 32 ∧
    ∀ st1 : State ℚ,
      (∀ i j, st1.spinor_ i j 0 = (State.ofField (fun _ _ _ => (⟨1, 2⟩ : Cx ℚ))).spinor_ i j 0) →
      (calculate_macroscopic_vars id ⟨1, 1, 1, 1, 1, 1⟩ (⟨2, 1, 1, 1, 1, 1⟩ : Config ℚ)
          st1).deltax_
        = (calculate_macroscopic_vars id ⟨1, 1, 1, 1, 1, 1⟩ (⟨2, 1, 1, 1, 1, 1⟩ : Config ℚ)
          (State.ofField (fun _ _ _ => ⟨1, 2⟩))).deltax_ ∧
      (calculate_macroscopic_vars id ⟨1, 1, 1, 1, 1, 1⟩ (⟨2, 1, 1, 1, 1, 1⟩ : Config ℚ)
          st1).deltay_
        = (calculate_macroscopic_vars id ⟨1, 1, 1, 1, 1, 1⟩ (⟨2, 1, 1, 1, 1, 1⟩ : Config ℚ)
          (State.ofField (fun _ _ _ => ⟨1, 2⟩))).deltay_ :=
  ⟨by decide,
    (spread_formula id ⟨1, 1, 1, 1, 1, 1⟩ (⟨2, 1, 1, 1, 1, 1⟩ : Config ℚ)
      (State.ofField (fun _ _ _ => ⟨1, 2⟩)) (by decide)).2.2⟩

/-- C14 (counterexample): with `dt = 1/100` and `t_ = 0`, after `evolution_CPU` the time
returned by `t()` is still `0`, not `0 + dt`. -/
theorem evolution_CPU_time_example :
    (evolution_CPU id example_constants (⟨2, 1, 1, 1 / 100, 1, 1⟩ : Config ℚ) 0
        (State.ofField (fun _ _ _ => 1))).t_
      ≠ (State.ofField (fun _ _ _ => (1 : Cx ℚ))).t_
        + (⟨2, 1, 1, 1 / 100, 1, 1⟩ : Config ℚ).dt_ := by
  show (0 : ℚ) ≠ 0 + 1 / 100
  norm_num

/-- C14 (amended): `evolution_CPU` does not write `t_`; the value returned by the accessor
`t()` is the same after the call as before it. -/
theorem evolution_CPU_keeps_t (sqrt : K → K) (k : Constants K) (c : Config K)
    (Q0 : cmat_t K) (st : State K) :
    (evolution_CPU sqrt k c Q0 st).t_ = st.t_ := rfl

/-- C15: the streaming shifts are bijections of the axis index.  For every `L ≥ 1` and
every `i` in `[0,L)`, `ia = (i+1) mod L` and `ik = (i−1+L) mod L` lie in `[0,L)` and the two
maps are mutually inverse; every target index has exactly one source index in each channel,
and an iteration of the X (or Y) collide-and-stream loop at any other source leaves the
target cell as it was. -/
theorem stream_shift_bijection (c : Config K) (i : Nat) (hi : i < c.L_) :
    (0 ≤ idx_a c.L_ i ∧ idx_a c.L_ i < c.L_) ∧
    (0 ≤ idx_k c.L_ i ∧ idx_k c.L_ i < c.L_) ∧
    idx_k c.L_ (idx_a c.L_ i) = i ∧
    idx_a c.L_ (idx_k c.L_ i) = i ∧
    (∀ k : Fin 4, ∃! i1 : Nat, i1 < c.L_ ∧
      (if k.val < 2 then idx_a c.L_ i1 else idx_k c.L_ i1) = (i : Int)) ∧
    (∀ (aux : c4mat_t K) (s : c4mat_t K × cmat_t K) (i1 j1 : Nat) (tj : Int) (k : Fin 4),
      ((if k.val < 2 then idx_a c.L_ i1 else idx_k c.L_ i1) ≠ (i : Int) ∨ tj ≠ (j1 : Int)) →
      (collide_stream_X_site c aux i1 j1 s).1 i tj k = s.1 i tj k) ∧
    (∀ (aux : c4mat_t K) (s : c4mat_t K × cmat_t K) (i1 j1 : Nat) (ti : Int) (k : Fin 4),
      ((if k.val < 2 then idx_a c.L_ j1 else idx_k c.L_ j1) ≠ (i : Int) ∨ ti ≠ (i1 : Int)) →
      (collide_stream_Y_site c aux i1 j1 s).1 ti i k = s.1 ti i k) := by
  refine ⟨?_, ?_, idx_k_idx_a _ _ hi, idx_a_idx_k _ _ hi, ?_, ?_, ?_⟩
  · obtain ⟨t, ht, e⟩ := idx_a_nat c.L_ i hi
    rw [e]; omega
  · obtain ⟨t, ht, e⟩ := idx_k_nat c.L_ i hi
    rw [e]; omega
  · intro k
    by_cases hk : k.val < 2
    · simp only [if_pos hk]
      obtain ⟨t, ht, e⟩ := idx_k_nat c.L_ i hi
      refine ⟨t, ⟨ht, ?_⟩, ?_⟩
      · rw [← e, idx_a_idx_k _ _ hi]
      · rintro y ⟨hy, ey⟩
        have h1 := idx_k_idx_a c.L_ y hy
        rw [ey, e] at h1
        exact_mod_cast h1.symm
    · simp only [if_neg hk]
      obtain ⟨t, ht, e⟩ := idx_a_nat c.L_ i hi
      refine ⟨t, ⟨ht, ?_⟩, ?_⟩
      · rw [← e, idx_k_idx_a _ _ hi]
      · rintro y ⟨hy, ey⟩
        have h1 := idx_a_idx_k c.L_ y hy
        rw [ey, e] at h1
        exact_mod_cast h1.symm
  · intro aux s i1 j1 tj k h
    rw [collide_stream_X_site_apply, if_neg]
    rintro ⟨e1, e2⟩
    rcases h with h | h
    · apply h
      rw [e2]
      simp only [idx_a, idx_k]
    · exact h e1
  · intro aux s i1 j1 ti k h
    rw [collide_stream_Y_site_apply, if_neg]
    rintro ⟨e1, e2⟩
    rcases h with h | h
    · apply h
      rw [e2]
      simp only [idx_a, idx_k]
    · exact h e1

/-- C15 (witness): `L = 3`, index `i = 2`, whose forward target wraps to 0. -/
theorem stream_shift_bijection_witness :
    2 < (⟨3, 1, 1, 1, 1, 1⟩ : Config ℚ).L_ ∧
    idx_k (3 : Nat) (idx_a (3 : Nat) (2 : Nat)) = (2 : Nat) :=
  ⟨by decide, (stream_shift_bijection (⟨3, 1, 1, 1, 1, 1⟩ : Config ℚ) 2 (by decide)).2.2.1⟩

/-- C16: for every configuration and every site `(i,j)`, `Qhat_X(i,j)` and `Qhat_Y(i,j)`
produce the same 4×4 matrix, whatever `Q` held before either call. -/
theorem Qhat_X_eq_Qhat_Y (c : Config K) (i j : Int) (Q0 Q1 : cmat_t K) :
    Qhat_X c i j Q0 = Qhat_Y c i j Q1 := by
  rw [Qhat_X, Qhat_Y, Qhat_Y_at_eq_Qhat_X_at, Qhat_X_at_eq_closed_form,
    Qhat_X_at_eq_closed_form]

/-- C17: for every real `mass`, `dt` and `V`, the collision matrix `Q` of `Qhat_X` and of
`Qhat_Y` is invertible with inverse its entrywise complex conjugate,
`Q·conj(Q) = conj(Q)·Q = I`; `Q = a·I + i·b·N` with `N·N = I`, `|a|² + |b|² = 1` and
`a·conj(b)` real. -/
theorem Qhat_inverse_is_conj (mass dt V : K) (Q0 : cmat_t K) :
    (Qhat_X_at mass dt V Q0 * cconj (Qhat_X_at mass dt V Q0) = 1 ∧
      cconj (Qhat_X_at mass dt V Q0) * Qhat_X_at mass dt V Q0 = 1) ∧
    (Qhat_Y_at mass dt V Q0 * cconj (Qhat_Y_at mass dt V Q0) = 1 ∧
      cconj (Qhat_Y_at mass dt V Q0) * Qhat_Y_at mass dt V Q0 = 1) ∧
    Qhat_X_at mass dt V Q0
      = coll_a mass dt V • (1 : cmat_t K) + (img * coll_b mass dt V) • N_mat ∧
    Qhat_Y_at mass dt V Q0
      = coll_a mass dt V • (1 : cmat_t K) + (img * coll_b mass dt V) • N_mat ∧
    (N_mat : cmat_t K) * N_mat = 1 ∧
    Cx.norm (coll_a mass dt V) + Cx.norm (coll_b mass dt V) = 1 ∧
    (coll_a mass dt V * Cx.conj (coll_b mass dt V)).im = 0 := by
  refine ⟨Qhat_X_at_mul_cconj mass dt V Q0, ?_, Qhat_X_at_eq_smul mass dt V Q0, ?_,
    N_mat_mul_self, coll_norm_a_add_norm_b mass dt V, coll_a_conj_b_im mass dt V⟩
  · rw [Qhat_Y_at_eq_Qhat_X_at]
    exact Qhat_X_at_mul_cconj mass dt V Q0
  · rw [Qhat_Y_at_eq_Qhat_X_at]
    exact Qhat_X_at_eq_smul mass dt V Q0

/-- C18: under the free potential (`V_indx_ ≠ 0`) the field update of `evolution_CPU`
commutes with the periodic lattice translations, for any constant matrices: updating the
field shifted cyclically by one site along x (or along y) gives, at every site of the
grid, the cyclic shift of the updated field.  The scratch buffers, the previous content of
`Q` and the other members of the two states are arbitrary. -/
theorem evolution_commutes_with_shift (sqrt sqrt1 : K → K) (k : Constants K) (c : Config K)
    (hV : c.V_indx_ ≠ 0) (Q0 Q1 : cmat_t K) (st st1 : State K) :
    (st1.spinor_ = shift_x c.L_ st.spinor_ →
      ∀ i j : Nat, i < c.L_ → j < c.L_ → ∀ m : Fin 4,
        (evolution_CPU sqrt1 k c Q1 st1).spinor_ i j m
          = shift_x c.L_ (evolution_CPU sqrt k c Q0 st).spinor_ i j m) ∧
    (st1.spinor_ = shift_y c.L_ st.spinor_ →
      ∀ i j : Nat, i < c.L_ → j < c.L_ → ∀ m : Fin 4,
        (evolution_CPU sqrt1 k c Q1 st1).spinor_ i j m
          = shift_y c.L_ (evolution_CPU sqrt k c Q0 st).spinor_ i j m) := by
  constructor
  · intro h i j hi hj m
    obtain ⟨u, hu, e⟩ := emod_succ_nat c.L_ i hi
    rw [evolution_CPU_spinor sqrt1 k c Q1 st1 i j hi hj m, h]
    show _ = (evolution_CPU sqrt k c Q0 st).spinor_ (((i : Int) + 1) % (c.L_ : Int)) j m
    rw [e, evolution_CPU_spinor sqrt k c Q0 st u j hu hj m, ← e,
      ← sweep_Y_shift_x k.Y k.Yinv c hV]
    exact sweep_Y_formula_congr k.Y k.Yinv c _ _
      (fun i1 j1 hi1 _ p => sweep_X_shift_x k.X k.Xinv c hV st.spinor_ i1 j1 hi1 p)
      i j hi hj m
  · intro h i j hi hj m
    obtain ⟨u, hu, e⟩ := emod_succ_nat c.L_ j hj
    rw [evolution_CPU_spinor sqrt1 k c Q1 st1 i j hi hj m, h]
    show _ = (evolution_CPU sqrt k c Q0 st).spinor_ i (((j : Int) + 1) % (c.L_ : Int)) m
    rw [e, evolution_CPU_spinor sqrt k c Q0 st i u hi hu m, ← e,
      ← sweep_Y_shift_y k.Y k.Yinv c hV _ i j hj]
    exact sweep_Y_formula_congr k.Y k.Yinv c _ _
      (fun i1 j1 _ _ p => sweep_X_shift_y k.X k.Xinv c hV st.spinor_ i1 j1 p)
      i j hi hj m

/-- C18 (witness): `L = 2`, free potential, a field that differs from site to site. -/
theorem evolution_commutes_with_shift_witness :
    (⟨2, 1, 1, 1, 1, 1⟩ : Config ℚ).V_indx_ ≠ 0 ∧
    ∀ i j : Nat, i < (⟨2, 1, 1, 1, 1, 1⟩ : Config ℚ).L_ →
      j < (⟨2, 1, 1, 1, 1, 1⟩ : Config ℚ).L_ → ∀ m : Fin 4,
      (@evolution_CPU ℚ LinearOrderedField.toField id example_constants
          (⟨2, 1, 1, 1, 1, 1⟩ : Config ℚ) 0
          (State.ofField (shift_x (⟨2, 1, 1, 1, 1, 1⟩ : Config ℚ).L_
            (fun a b _ => ⟨a, b⟩)))).spinor_ i j m
        = shift_x (⟨2, 1, 1, 1, 1, 1⟩ : Config ℚ).L_
          (@evolution_CPU ℚ LinearOrderedField.toField id example_constants
            (⟨2, 1, 1, 1, 1, 1⟩ : Config ℚ) 0
            (State.ofField (fun a b _ => ⟨a, b⟩))).spinor_ i j m :=
  ⟨by decide,
    (evolution_commutes_with_shift id id example_constants (⟨2, 1, 1, 1, 1, 1⟩ : Config ℚ)
      (by decide) 0 0 (State.ofField (fun a b _ => ⟨a, b⟩))
      (State.ofField (shift_x (⟨2, 1, 1, 1, 1, 1⟩ : Config ℚ).L_
        (fun a b _ => ⟨a, b⟩)))).1 rfl⟩

/-- C19: if `alphaX` is Hermitian, then for every field and every site of the grid the
current `currentX_(i,j) = Σ_{is,js} conj(spinor_(i,j,is))·alphaX(is,js)·spinor_(i,j,js)`
computed by `calculate_macroscopic_vars` has zero imaginary part; likewise `currentY_` for
Hermitian `alphaY`. -/
theorem current_is_real (sqrt : K → K) (k : Constants K) (c : Config K) (st : State K)
    (i j : Nat) (hi : i < c.L_) (hj : j < c.L_) :
    ((∀ r s, k.alphaX r s = Cx.conj (k.alphaX s r)) →
      (calculate_macroscopic_vars sqrt k c st).currentX_ i j
        = ∑ r : Fin 4, ∑ s : Fin 4,
            Cx.conj (st.spinor_ i j r) * k.alphaX r s * st.spinor_ i j s ∧
      ((calculate_macroscopic_vars sqrt k c st).currentX_ i j).im = 0) ∧
    ((∀ r s, k.alphaY r s = Cx.conj (k.alphaY s r)) →
      (calculate_macroscopic_vars sqrt k c st).currentY_ i j
        = ∑ r : Fin 4, ∑ s : Fin 4,
            Cx.conj (st.spinor_ i j r) * k.alphaY r s * st.spinor_ i j s ∧
      ((calculate_macroscopic_vars sqrt k c st).currentY_ i j).im = 0) := by
  constructor
  · intro hA
    refine ⟨calc_currentX_in sqrt k c st i j hi hj, ?_⟩
    rw [calc_currentX_in sqrt k c st i j hi hj]
    exact hermitian_form_im k.alphaX hA (st.spinor_ i j)
  · intro hA
    refine ⟨calc_currentY_in sqrt k c st i j hi hj, ?_⟩
    rw [calc_currentY_in sqrt k c st i j hi hj]
    exact hermitian_form_im k.alphaY hA (st.spinor_ i j)

/-- C19 (witness): `alphaX(r,c) = i·(r − c)`, a Hermitian matrix, at `L = 2`, site `(1,0)`. -/
theorem current_is_real_witness :
    ((1 < (⟨2, 1, 1, 1, 1, 1⟩ : Config ℚ).L_ ∧ 0 < (⟨2, 1, 1, 1, 1, 1⟩ : Config ℚ).L_) ∧
      ∀ r s : Fin 4, example_constants.alphaX r s = Cx.conj (example_constants.alphaX s r)) ∧
    ((@calculate_macroscopic_vars ℚ LinearOrderedField.toField id example_constants
        (⟨2, 1, 1, 1, 1, 1⟩ : Config ℚ)
        (State.ofField (fun _ _ n => ⟨1, n.val⟩))).currentX_ (1 : Nat) (0 : Nat)).im = 0 :=
  ⟨⟨⟨by decide, by decide⟩, fun r s => by ext <;> simp [example_constants, Cx.conj]⟩,
    ((current_is_real id example_constants (⟨2, 1, 1, 1, 1, 1⟩ : Config ℚ)
        (State.ofField (fun _ _ n => ⟨1, n.val⟩)) 1 0 (by decide) (by decide)).1
      (fun r s => by ext <;> simp [example_constants, Cx.conj])).2⟩

/-- C20: the spread is bounded by the half-width of the grid.  For `1 ≤ L` (an `unsigned`,
so `L < 2³²`), `dx > 0`, every field whose channel 0 is non-zero at some site of the grid,
and `sqrt` the non-negative square root: after `calculate_macroscopic_vars`,
`0 ≤ deltax_ ≤ dx·(L−1)/2` and `0 ≤ deltay_ ≤ dx·(L−1)/2`; both are 0 when `L = 1`. -/
theorem spread_bounded (sqrt : K → K)
    (hsqrt : ∀ x : K, 0 ≤ x → 0 ≤ sqrt x ∧ sqrt x * sqrt x = x)
    (k : Constants K) (c : Config K) (st : State K)
    (hL : 1 ≤ c.L_) (hL32 : c.L_ < 2 ^ 32) (hdx : 0 < c.dx_)
    (hnz : ∃ i j : Nat, i < c.L_ ∧ j < c.L_ ∧ st.spinor_ i j 0 ≠ 0) :
    (0 ≤ (calculate_macroscopic_vars sqrt k c st).deltax_ ∧
      (calculate_macroscopic_vars sqrt k c st).deltax_ ≤ c.dx_ * ((c.L_ : K) - 1) / 2) ∧
    (0 ≤ (calculate_macroscopic_vars sqrt k c st).deltay_ ∧
      (calculate_macroscopic_vars sqrt k c st).deltay_ ≤ c.dx_ * ((c.L_ : K) - 1) / 2) ∧
    (c.L_ = 1 → (calculate_macroscopic_vars sqrt k c st).deltax_ = 0 ∧
      (calculate_macroscopic_vars sqrt k c st).deltay_ = 0) := by
  have hB : 0 ≤ c.dx_ * ((c.L_ : K) - 1) / 2 := by
    have : (1 : K) ≤ (c.L_ : K) := by exact_mod_cast hL
    have h2 : 0 ≤ (c.L_ : K) - 1 := by linarith
    positivity
  have hw : ∀ i j : Nat, 0 ≤ Cx.norm (st.spinor_ i j 0) * (c.dx_ * c.dx_) :=
    fun i j => mul_nonneg (cx_norm_nonneg _) (mul_self_nonneg _)
  have hpos : ∃ i j : Nat, i < c.L_ ∧ j < c.L_ ∧
      0 < Cx.norm (st.spinor_ i j 0) * (c.dx_ * c.dx_) := by
    obtain ⟨i, j, hi, hj, h⟩ := hnz
    exact ⟨i, j, hi, hj, mul_pos (cx_norm_pos _ h) (mul_pos hdx hdx)⟩
  have hX := spread_bounds sqrt hsqrt c.L_
    (fun i j => Cx.norm (st.spinor_ i j 0) * (c.dx_ * c.dx_))
    (fun i _ => (c.dx_ * ((i : K) - 0.5 * ((L_minus_1 c.L_ : Nat) : K)))
      * (c.dx_ * ((i : K) - 0.5 * ((L_minus_1 c.L_ : Nat) : K))))
    _ hB hw (fun i _ => mul_self_nonneg _)
    (fun i j hi _ => by
      rw [cast_L_minus_1 c.L_ hL hL32]
      exact coord_sq_le c.dx_ c.L_ i hi) hpos
  have hY := spread_bounds sqrt hsqrt c.L_
    (fun i j => Cx.norm (st.spinor_ i j 0) * (c.dx_ * c.dx_))
    (fun _ j => (c.dx_ * ((j : K) - 0.5 * ((L_minus_1 c.L_ : Nat) : K)))
      * (c.dx_ * ((j : K) - 0.5 * ((L_minus_1 c.L_ : Nat) : K))))
    _ hB hw (fun _ j => mul_self_nonneg _)
    (fun i j _ hj => by
      rw [cast_L_minus_1 c.L_ hL hL32]
      exact coord_sq_le c.dx_ c.L_ j hj) hpos
  have eX : (calculate_macroscopic_vars sqrt k c st).deltax_ = _ := calc_deltax sqrt k c st
  have eY : (calculate_macroscopic_vars sqrt k c st).deltay_ = _ := calc_deltay sqrt k c st
  simp only [mul_assoc] at hX hY eX eY
  rw [← eX] at hX
  rw [← eY] at hY
  refine ⟨hX, hY, fun h1 => ?_⟩
  have hz : c.dx_ * ((c.L_ : K) - 1) / 2 = 0 := by
    rw [h1]; simp
  rw [hz] at hX hY
  exact ⟨le_antisymm hX.2 hX.1, le_antisymm hY.2 hY.1⟩

/-- C20 (witness): real numbers with `Real.sqrt`, `L = 2`, `dx = 1`, channel 0 equal to 1
at every site. -/
theorem spread_bounded_witness :
    ((∀ x : ℝ, 0 ≤ x → 0 ≤ Real.sqrt x ∧ Real.sqrt x * Real.sqrt x = x) ∧
      1 ≤ (⟨2, 1, 1, 1, 1, 1⟩ : Config ℝ).L_ ∧ (⟨2, 1, 1, 1, 1, 1⟩ : Config ℝ).L_ < 2 ^ 32 ∧
      0 < (⟨2, 1, 1, 1, 1, 1⟩ : Config ℝ).dx_ ∧
      ∃ i j : Nat, i < (⟨2, 1, 1, 1, 1, 1⟩ : Config ℝ).L_ ∧
        j < (⟨2, 1, 1, 1, 1, 1⟩ : Config ℝ).L_ ∧
        (State.ofField (fun _ _ _ => (1 : Cx ℝ))).spinor_ i j 0 ≠ 0) ∧
    (0 ≤ (calculate_macroscopic_vars Real.sqrt ⟨1, 1, 1, 1, 1, 1⟩
        (⟨2, 1, 1, 1, 1, 1⟩ : Config ℝ) (State.ofField (fun _ _ _ => 1))).deltax_ ∧
      (calculate_macroscopic_vars Real.sqrt ⟨1, 1, 1, 1, 1, 1⟩
        (⟨2, 1, 1, 1, 1, 1⟩ : Config ℝ) (State.ofField (fun _ _ _ => 1))).deltax_
        ≤ (⟨2, 1, 1, 1, 1, 1⟩ : Config ℝ).dx_
          * ((((⟨2, 1, 1, 1, 1, 1⟩ : Config ℝ).L_ : Nat) : ℝ) - 1) / 2) :=
  ⟨⟨fun x hx => ⟨Real.sqrt_nonneg x, Real.mul_self_sqrt hx⟩, by decide, by decide,
      one_pos, 0, 0, by decide, by decide, fun h => one_ne_zero (congrArg Cx.re h)⟩,
    (spread_bounded Real.sqrt (fun x hx => ⟨Real.sqrt_nonneg x, Real.mul_self_sqrt hx⟩)
      ⟨1, 1, 1, 1, 1, 1⟩ (⟨2, 1, 1, 1, 1, 1⟩ : Config ℝ) (State.ofField (fun _ _ _ => 1))
      (by decide) (by decide) one_pos
      ⟨0, 0, by decide, by decide, fun h => one_ne_zero (congrArg Cx.re h)⟩).1⟩

/-- C21: the kernel accepts every potential selector, and every value other than 0 means
the free potential.  For every `V_indx ≠ 0`, every site and every `mass`, `dt`, `Qhat_X`
and `Qhat_Y` fill `Q` as for `V = 0`; so two non-zero selector values give the same `Q`,
whatever the site `(i,j)`, `dx`, `L` and `δ0` are, and the same step of `evolution_CPU`
(the same field update and the same macroscopic variables). -/
theorem selector_nonzero_is_free (L : Nat) (dx mass dt δ0 : K) (v1 v2 : Int)
    (h1 : v1 ≠ 0) (h2 : v2 ≠ 0) :
    (∀ (i j : Int) (Q0 : cmat_t K),
      V_ij (⟨L, dx, mass, dt, δ0, v1⟩ : Config K) i j = 0 ∧
      Qhat_X ⟨L, dx, mass, dt, δ0, v1⟩ i j Q0 = Qhat_X_at mass dt 0 Q0 ∧
      Qhat_Y ⟨L, dx, mass, dt, δ0, v1⟩ i j Q0 = Qhat_Y_at mass dt 0 Q0) ∧
    (∀ (L1 : Nat) (dx1 δ1 : K) (i j i1 j1 : Int) (Q0 Q1 : cmat_t K),
      Qhat_X ⟨L, dx, mass, dt, δ0, v1⟩ i j Q0
        = Qhat_X ⟨L1, dx1, mass, dt, δ1, v2⟩ i1 j1 Q1 ∧
      Qhat_Y ⟨L, dx, mass, dt, δ0, v1⟩ i j Q0
        = Qhat_Y ⟨L1, dx1, mass, dt, δ1, v2⟩ i1 j1 Q1) ∧
    (∀ (sqrt : K → K) (k : Constants K) (Q0 : cmat_t K) (st : State K),
      evolution_CPU sqrt k ⟨L, dx, mass, dt, δ0, v1⟩ Q0 st
        = evolution_CPU sqrt k ⟨L, dx, mass, dt, δ0, v2⟩ Q0 st) := by
  refine ⟨fun i j Q0 => ?_, fun L1 dx1 δ1 i j i1 j1 Q0 Q1 => ?_,
    fun sqrt k Q0 st => evolution_CPU_selector sqrt k L dx mass dt δ0 v1 v2 h1 h2 Q0 st⟩
  · have hv := V_ij_free (⟨L, dx, mass, dt, δ0, v1⟩ : Config K) h1 i j
    refine ⟨hv, ?_, ?_⟩
    · rw [Qhat_X, hv]
    · rw [Qhat_Y, hv]
  · rw [Qhat_X_free (⟨L, dx, mass, dt, δ0, v1⟩ : Config K) h1,
      Qhat_X_free (⟨L1, dx1, mass, dt, δ1, v2⟩ : Config K) h2,
      Qhat_Y_free (⟨L, dx, mass, dt, δ0, v1⟩ : Config K) h1,
      Qhat_Y_free (⟨L1, dx1, mass, dt, δ1, v2⟩ : Config K) h2]
    exact ⟨rfl, rfl⟩

/-- C21 (witness): the selectors 1 and 7 at `mass = 2`, `dt = 1/100`. -/
theorem selector_nonzero_is_free_witness :
    ((1 : Int) ≠ 0 ∧ (7 : Int) ≠ 0) ∧
    ∀ (L1 : Nat) (dx1 δ1 : ℚ) (i j i1 j1 : Int) (Q0 Q1 : cmat_t ℚ),
      Qhat_X ⟨4, 1, 2, 1 / 100, 1, 1⟩ i j Q0
        = Qhat_X ⟨L1, dx1, 2, 1 / 100, δ1, 7⟩ i1 j1 Q1 ∧
      Qhat_Y ⟨4, 1, 2, 1 / 100, 1, 1⟩ i j Q0
        = Qhat_Y ⟨L1, dx1, 2, 1 / 100, δ1, 7⟩ i1 j1 Q1 :=
  ⟨⟨by decide, by decide⟩,
    (selector_nonzero_is_free 4 1 2 (1 / 100) 1 1 7 (by decide) (by decide)).2.1⟩

end Claims

end QLB
